import Mathlib

/-!
Verification of the micropip mock-package subsystem
(`micropip/_commands/mock_package.py`).

The development is a shallow embedding of the module: the filesystem is a
finite map from absolute paths (lists of components) to file contents plus a
list of existing directories, `sys.path` is a list of Python values (strings
or `pathlib.Path` objects, since the source compares a `Path` against the
entries), and the in-memory mock registry is a list of registered
distributions.  The runtime-wide distribution query facility
(`importlib.metadata`) is an external collaborator; it is modelled as
discovering `*.dist-info` directories under the user site-packages root
(the only place this subsystem writes to) and the registered in-memory
distributions, reading names from `METADATA`, installer tags from
`INSTALLER` and owned files from `RECORD`.  String parsing is done on
character lists (`String.data`) so that the parse/print round trips can be
proved by list induction.
-/

namespace Micropip

/-- An absolute filesystem path, as its list of components. -/
abbrev FsPath := List String

/-- The filesystem: file contents keyed by path (the head of the list is the
most recent write) together with the list of existing directories. -/
structure FS where
  files : List (FsPath × String)
  dirs : List FsPath
deriving DecidableEq, Repr

/-- Read a file: the most recently written content at the path, if any. -/
def FS.read (fs : FS) (p : FsPath) : Option String :=
  (fs.files.find? (fun e => e.1 == p)).map (fun e => e.2)

/-- Write (create or truncate) a file, as Python `open(p, "w")` plus write. -/
def FS.write (fs : FS) (p : FsPath) (c : String) : FS :=
  { fs with files := (p, c) :: fs.files }

/-- Delete a file, as `Path.unlink` once the file is known to exist. -/
def FS.erase (fs : FS) (p : FsPath) : FS :=
  { fs with files := fs.files.filter (fun e => e.1 != p) }

/-- Whether a path exists (as a directory or as a file), as `Path.exists`. -/
def pathExistsB (fs : FS) (p : FsPath) : Bool :=
  fs.dirs.contains p || (fs.read p).isSome

/-- Create a single directory if absent (the `exist_ok=True` behaviour). -/
def FS.addDir (fs : FS) (p : FsPath) : FS :=
  if fs.dirs.contains p then fs else { fs with dirs := fs.dirs ++ [p] }

/-- All nonempty prefixes of a path, shortest first. -/
def pathInits (p : FsPath) : List FsPath :=
  (List.range p.length).map (fun i => p.take (i + 1))

/-- `Path.mkdir(parents=True, exist_ok=True)`: create the directory and all
its ancestors, skipping the ones that already exist. -/
def mkdirParents (fs : FS) (p : FsPath) : FS :=
  (pathInits p).foldl FS.addDir fs

/-- `shutil.rmtree`: remove the directory and everything below it. -/
def rmtreeFS (fs : FS) (p : FsPath) : FS :=
  { files := fs.files.filter (fun e => !(p.isPrefixOf e.1)),
    dirs := fs.dirs.filter (fun d => !(p.isPrefixOf d)) }

/-- A value stored in `sys.path`.  The source compares a `pathlib.Path`
object against the entries of `sys.path`, so the model keeps both shapes. -/
inductive PyPathOrStr where
  | str (s : String)
  | path (p : FsPath)
deriving DecidableEq, Repr

/-- Python `==` on these values: a `Path` never equals a `str`. -/
def pyEq : PyPathOrStr → PyPathOrStr → Bool
  | .str a, .str b => a == b
  | .path a, .path b => a == b
  | _, _ => false

/-- One distribution registered with the in-memory backend. -/
structure MemDist where
  name : String
  metafiles : List (String × String)
  modules : List (String × Option String)
deriving DecidableEq, Repr

/-- The process state seen by the subsystem: the filesystem, `sys.path`,
and the in-memory mock registry. -/
structure State where
  fs : FS
  sysPath : List PyPathOrStr
  memDists : List MemDist
deriving DecidableEq, Repr

/-- The errors the subsystem can raise (`FileExistsError` from the
conflicting `mkdir`, `FileNotFoundError` from `unlink`/`rmtree`,
`PackageNotFoundError` from the distribution lookup, and the `ValueError`
raised for a distribution that is not a micropip mock; the `ValueError`
carries the offending package name, standing for the message
`"Package NAME does not seem to be a micropip mock. Are you sure it was
installed with micropip?"`). -/
inductive PyError where
  | fileExists (p : FsPath)
  | fileNotFound (p : FsPath)
  | packageNotFound (name : String)
  | valueError (name : String)
deriving DecidableEq, Repr

/-- Split a character list at every occurrence of `c`, as Python
`str.split`: `splitChar c [] = [[]]` and separators at the ends produce
empty pieces. -/
def splitChar (c : Char) : List Char → List (List Char)
  | [] => [[]]
  | a :: rest =>
    if a = c then [] :: splitChar c rest
    else
      match splitChar c rest with
      | [] => [[a]]
      | l :: ls => (a :: l) :: ls

/-- Interleave the separator `c` between the pieces (inverse of
`splitChar`). -/
def joinSep (c : Char) : List (List Char) → List Char
  | [] => []
  | [l] => l
  | l :: ls => l ++ c :: joinSep c ls

/-- The characters of the POSIX rendering of an absolute path
(`str(Path(...))`). -/
def pathChars (p : FsPath) : List Char :=
  '/' :: joinSep '/' (p.map String.data)

/-- `str(path)` for an absolute path. -/
def pathToString (p : FsPath) : String :=
  String.mk (pathChars p)

/-- Parse a POSIX path string back into components (empty components, such
as the one before the leading slash, collapse away). -/
def parsePathChars (cs : List Char) : FsPath :=
  ((splitChar '/' cs).filter (fun l => !l.isEmpty)).map String.mk

/-- The fixed directory returned by `site.getusersitepackages()` for the
current process, as its components. -/
def sitePackages : FsPath :=
  ["root", ".local", "lib", "python3.11", "site-packages"]

/-- Decimal digits, fuelled so that the recursion is structural (the fuel
is always sufficient: a number below `10 ^ fuel` has at most `fuel`
digits). -/
def natCharsAux : Nat → Nat → List Char
  | 0, _ => []
  | fuel + 1, n =>
    if n < 10 then [Char.ofNat (48 + n)]
    else natCharsAux fuel (n / 10) ++ [Char.ofNat (48 + n % 10)]

/-- Decimal digits of a natural number, as `str(n)` renders it. -/
def natChars (n : Nat) : List Char := natCharsAux (n + 1) n

/-- Whether a character counts as indentation for `textwrap.dedent`. -/
def isWsChar (c : Char) : Bool := c == ' ' || c == '\t'

/-- Longest common prefix of two character lists. -/
def commonPrefixChars : List Char → List Char → List Char
  | x :: xs, y :: ys => if x = y then x :: commonPrefixChars xs ys else []
  | _, _ => []

/-- One step of the margin computation of `textwrap.dedent`. -/
def marginStep (m : Option (List Char)) (ind : List Char) : Option (List Char) :=
  match m with
  | none => some ind
  | some mg =>
    if mg.isPrefixOf ind then some mg
    else if ind.isPrefixOf mg then some ind
    else some (commonPrefixChars mg ind)

/-- Strip the margin from one line if the line starts with it (the
per-line behaviour of the `re.sub` in `textwrap.dedent`). -/
def dedentLine (margin : List Char) (l : List Char) : List Char :=
  if margin.isPrefixOf l then l.drop margin.length else l

/-- `textwrap.dedent`: blank out whitespace-only lines, compute the common
leading whitespace of the remaining nonempty lines, and strip it. -/
def dedent (text : String) : String :=
  let lines := splitChar '\n' text.data
  let lines := lines.map (fun l => if !l.isEmpty && l.all isWsChar then [] else l)
  let indents := (lines.filter (fun l => !l.isEmpty)).map (List.takeWhile isWsChar)
  let margin := (indents.foldl marginStep none).getD []
  let lines := if margin.isEmpty then lines else lines.map (dedentLine margin)
  String.mk (joinSep '\n' lines)

/-- Installer tag of the in-memory backend
(`MOCK_INSTALL_NAME_MEMORY` in the source). -/
def MOCK_INSTALL_NAME_MEMORY : String := "micropip in-memory mock package"

/-- Installer tag of the persistent backend
(`MOCK_INSTALL_NAME_PERSISTENT` in the source). -/
def MOCK_INSTALL_NAME_PERSISTENT : String := "micropip mock package"

/-- The `METADATA` text built by `add_mock_package`: the fixed header
fields followed by one `Provides:` line per module. -/
def metadataText (name version : String) (modules : List (String × Option String)) : String :=
  "Metadata-Version: 1.1\nName: " ++ name ++ "\nVersion: " ++ version
    ++ "\nSummary: " ++ name ++ " mock package generated by micropip\nAuthor-email: "
    ++ name ++ "@micro.pip.non-working-fake-host\n"
    ++ String.join (modules.map (fun m => "Provides:" ++ m.1 ++ "\n"))

/-- How the runtime distribution query facility reads a distribution name
from its `METADATA` text: the value of the first `Name:` header line. -/
def parseName (m : String) : String :=
  match (splitChar '\n' m.data).find? (fun l => "Name: ".data.isPrefixOf l) with
  | some l => String.mk (l.drop 6)
  | none => ""

/-- How the runtime distribution query facility turns a `RECORD` text into
the list of owned file paths: one path per nonempty line, everything before
the first comma. -/
def parseRecord (r : String) : List FsPath :=
  ((splitChar '\n' r.data).filter (fun l => !l.isEmpty)).map
    (fun l => parsePathChars (l.takeWhile (fun c => c != ',')))

/-- A distribution as seen through the runtime-wide query facility: its
name, the text of its `INSTALLER` file (if any) and its owned files (if a
`RECORD` is available). -/
structure Dist where
  name : String
  installerText : Option String
  files : Option (List FsPath)
deriving DecidableEq, Repr

/-- Whether `d` is a `NAME-VERSION.dist-info` directory directly below the
root `sp`. -/
def isDistInfoDirOf (sp : FsPath) (d : FsPath) : Bool :=
  d.dropLast == sp && ".dist-info".data.isSuffixOf (d.getLastD "").data

/-- The view the query facility gives of one on-disk `*.dist-info`
directory. -/
def distOfDir (fs : FS) (d : FsPath) : Dist :=
  { name := parseName ((fs.read (d ++ ["METADATA"])).getD ""),
    installerText := fs.read (d ++ ["INSTALLER"]),
    files := (fs.read (d ++ ["RECORD"])).map parseRecord }

/-- All on-disk distributions below the user site-packages root. -/
def persistentDists (fs : FS) : List Dist :=
  (fs.dirs.filter (isDistInfoDirOf sitePackages)).map (distOfDir fs)

/-- The view the query facility gives of one registered in-memory
distribution. -/
def memDistView (m : MemDist) : Dist :=
  { name := m.name,
    installerText := (m.metafiles.find? (fun e => e.1 == "INSTALLER")).map (fun e => e.2),
    files := none }

/-- `importlib.metadata.distributions()`: every distribution known to the
runtime-wide query facility. -/
def distributions (s : State) : List Dist :=
  persistentDists s.fs ++ s.memDists.map memDistView

/-- `importlib.metadata.distribution(name)`: the first distribution with
the given name, if any. -/
def distributionFind (s : State) (name : String) : Option Dist :=
  (distributions s).find? (fun d => d.name == name)

/-- Modelled from the spec: `_add_in_memory_distribution` (module
`micropip._mock_package`, whose source is not part of this repository)
registers a distribution in the process-wide table keyed by name, carrying
its metadata files and declared modules, and exposes it through the
standard distribution query surface. -/
def addInMemoryDistribution (tbl : List MemDist) (name : String)
    (metafiles : List (String × String)) (modules : List (String × Option String)) :
    List MemDist :=
  tbl.filter (fun m => m.name != name) ++ [⟨name, metafiles, modules⟩]

/-- Modelled from the spec: `_remove_in_memory_distribution` (module
`micropip._mock_package`, whose source is not part of this repository)
unregisters the distribution from the process-wide tables; nothing on the
filesystem is touched. -/
def removeInMemoryDistribution (tbl : List MemDist) (name : String) : List MemDist :=
  tbl.filter (fun m => m.name != name)

/-- Python `name.split(".")`, as a list of component strings. -/
def splitDot (n : String) : List String :=
  (splitChar '.' n.data).map String.mk

/-- The `name-version.dist-info` directory of a persistent mock. -/
def metadataDirOf (name version : String) : FsPath :=
  sitePackages ++ [name ++ "-" ++ version ++ ".dist-info"]

/-- The `__init__.py` file created for one declared module. -/
def initPathOf (n : String) : FsPath :=
  sitePackages ++ splitDot n ++ ["__init__.py"]

/-- The body of the module-writing loop of `add_mock_package` (persistent
branch): dedent the source (empty when absent), create the nested package
directories, write the `__init__.py`, and record the created path. -/
def addModuleFiles (acc : FS × List FsPath) (m : String × Option String) :
    FS × List FsPath :=
  let src := dedent (m.2.getD "")
  let dirPath := sitePackages ++ splitDot m.1
  let fs := mkdirParents acc.1 dirPath
  (fs.write (dirPath ++ ["__init__.py"]) src, acc.2 ++ [dirPath ++ ["__init__.py"]])

/-- `file.stat().st_size` of an existing file: the byte size of its
content. -/
def stSize (fs : FS) (p : FsPath) : Nat :=
  ((fs.read p).getD "").utf8ByteSize

/-- One line of the `RECORD` file: `str(file),,st_size` and a newline. -/
def recordLineOf (fs : FS) (p : FsPath) : String :=
  pathToString p ++ ",," ++ String.mk (natChars (stSize fs p)) ++ "\n"

/-- The full text written to `RECORD`: one line per recorded file, then
the self-referencing line with blank checksum and blank size. -/
def recordText (fs : FS) (fl : List FsPath) (recordFile : FsPath) : String :=
  String.join (fl.map (recordLineOf fs)) ++ pathToString recordFile ++ ",,\n"

/-- `add_mock_package(name, version, modules=..., persistent=...)`.
Returns the raised error (if any) together with the state after the call;
a raised error still keeps the mutations made before the `raise`.  The
in-memory branch delegates to the spec-modelled
`addInMemoryDistribution`. -/
def add_mock_package (s : State) (name version : String)
    (modules : Option (List (String × Option String))) (persistent : Bool) :
    Except PyError Unit × State :=
  let modules := modules.getD [(name, some "")]
  let METADATA := metadataText name version modules
  if persistent then
    let fs0 := if pathExistsB s.fs sitePackages then s.fs else mkdirParents s.fs sitePackages
    let sysPath :=
      if s.sysPath.any (fun e => pyEq e (.path sitePackages)) then s.sysPath
      else s.sysPath ++ [.str (pathToString sitePackages)]
    let metadataDir := metadataDirOf name version
    if pathExistsB fs0 metadataDir then
      (.error (.fileExists metadataDir), { s with fs := fs0, sysPath := sysPath })
    else
      let fs1 := mkdirParents fs0 metadataDir
      let metadataFile := metadataDir ++ ["METADATA"]
      let recordFile := metadataDir ++ ["RECORD"]
      let installerFile := metadataDir ++ ["INSTALLER"]
      let fs2 := fs1.write metadataFile METADATA
      let acc := modules.foldl addModuleFiles (fs2, [metadataFile, installerFile])
      let fs3 := acc.1.write installerFile MOCK_INSTALL_NAME_PERSISTENT
      let fs4 := fs3.write recordFile (recordText fs3 acc.2 recordFile)
      (.ok (), { s with fs := fs4, sysPath := sysPath })
  else
    let INSTALLER := MOCK_INSTALL_NAME_MEMORY
    let metafiles := [("METADATA", METADATA), ("INSTALLER", INSTALLER)]
    (.ok (), { s with memDists := addInMemoryDistribution s.memDists name metafiles modules })

/-- `list_mock_packages()`: collect the names of the distributions whose
`INSTALLER` text is one of the two mock tags. -/
def list_mock_packages (s : State) : List String :=
  (distributions s).foldl
    (fun packages dist =>
      match dist.installerText with
      | none => packages
      | some installer =>
        if installer == MOCK_INSTALL_NAME_PERSISTENT
            || installer == MOCK_INSTALL_NAME_MEMORY then
          packages ++ [dist.name]
        else packages)
    []

/-- The `p.unlink()` loop of `remove_mock_package`: delete the files in
order, stopping with `FileNotFoundError` at the first missing one. -/
def unlinkAll : FS → List FsPath → Except PyError Unit × FS
  | fs, [] => (.ok (), fs)
  | fs, p :: ps =>
    if (fs.read p).isSome then unlinkAll (fs.erase p) ps
    else (.error (.fileNotFound p), fs)

/-- The parent directories of the removed files.  The source collects them
in a Python `set`, whose iteration order is unspecified; the model uses
first-insertion order. -/
def collectFolders (fl : List FsPath) : List FsPath :=
  fl.foldl (fun acc p => if acc.contains p.dropLast then acc else acc ++ [p.dropLast]) []

/-- The folder-deletion loop of `remove_mock_package`: `shutil.rmtree`
every collected folder except the site-packages root `sp` itself, stopping
with `FileNotFoundError` at the first missing one. -/
def rmtreeLoop (sp : FsPath) : FS → List FsPath → Except PyError Unit × FS
  | fs, [] => (.ok (), fs)
  | fs, f :: rest =>
    if f == sp then rmtreeLoop sp fs rest
    else if fs.dirs.contains f then rmtreeLoop sp (rmtreeFS fs f) rest
    else (.error (.fileNotFound f), fs)

/-- `remove_mock_package(name)`.  Returns the raised error (if any)
together with the state after the call; a raised error still keeps the
mutations made before it.  The in-memory branch delegates to the
spec-modelled `removeInMemoryDistribution`. -/
def remove_mock_package (s : State) (name : String) : Except PyError Unit × State :=
  match distributionFind s name with
  | none => (.error (.packageNotFound name), s)
  | some d =>
    if d.installerText == some MOCK_INSTALL_NAME_MEMORY then
      (.ok (), { s with memDists := removeInMemoryDistribution s.memDists name })
    else if d.installerText == none || d.installerText != some MOCK_INSTALL_NAME_PERSISTENT then
      (.error (.valueError name), s)
    else
      let fl := match d.files with
        | none => []
        | some l => l
      match unlinkAll s.fs fl with
      | (.error e, fs) => (.error e, { s with fs := fs })
      | (.ok _, fs) =>
        match rmtreeLoop sitePackages fs (collectFolders fl) with
        | (.error e, fs2) => (.error e, { s with fs := fs2 })
        | (.ok _, fs2) => (.ok (), { s with fs := fs2 })

/-! ### Basic lemmas about the character-list parsing helpers -/

theorem splitChar_nil (c : Char) : splitChar c [] = [[]] := rfl

theorem splitChar_ne_nil (c : Char) (l : List Char) : splitChar c l ≠ [] := by
  induction l with
  | nil => simp [splitChar]
  | cons a rest ih =>
    simp only [splitChar]
    by_cases h : a = c
    · simp [h]
    · simp only [if_neg h]
      cases hs : splitChar c rest with
      | nil => simp
      | cons x xs => simp

theorem splitChar_of_not_mem {c : Char} {l : List Char} (h : c ∉ l) :
    splitChar c l = [l] := by
  induction l with
  | nil => rfl
  | cons a rest ih =>
    simp only [List.mem_cons, not_or] at h
    have hne : a ≠ c := fun hac => h.1 hac.symm
    simp [splitChar, if_neg hne, ih h.2]

theorem splitChar_append_cons {c : Char} {xs : List Char} (ys : List Char)
    (h : c ∉ xs) : splitChar c (xs ++ c :: ys) = xs :: splitChar c ys := by
  induction xs with
  | nil => simp [splitChar]
  | cons a rest ih =>
    simp only [List.mem_cons, not_or] at h
    have hne : a ≠ c := fun hac => h.1 hac.symm
    have ih2 := ih h.2
    rw [List.cons_append]
    simp only [splitChar, if_neg hne, List.append_eq]
    rw [ih2]

theorem joinSep_splitChar (c : Char) (l : List Char) :
    joinSep c (splitChar c l) = l := by
  induction l with
  | nil => rfl
  | cons a rest ih =>
    simp only [splitChar]
    by_cases h : a = c
    · subst h
      rw [if_pos rfl]
      cases hs : splitChar a rest with
      | nil => exact absurd hs (splitChar_ne_nil a rest)
      | cons x xs =>
        rw [hs] at ih
        simp [joinSep, ih]
    · rw [if_neg h]
      cases hs : splitChar c rest with
      | nil => exact absurd hs (splitChar_ne_nil c rest)
      | cons x xs =>
        rw [hs] at ih
        cases xs with
        | nil => simpa [joinSep] using congrArg (a :: ·) ih
        | cons y ys => simpa [joinSep] using congrArg (a :: ·) ih

theorem splitChar_injective {c : Char} {l1 l2 : List Char}
    (h : splitChar c l1 = splitChar c l2) : l1 = l2 := by
  have := congrArg (joinSep c) h
  rwa [joinSep_splitChar, joinSep_splitChar] at this

theorem splitChar_joinSep {c : Char} {ls : List (List Char)} (hne : ls ≠ [])
    (h : ∀ l ∈ ls, c ∉ l) : splitChar c (joinSep c ls) = ls := by
  induction ls with
  | nil => exact absurd rfl hne
  | cons l rest ih =>
    cases rest with
    | nil =>
      simp only [joinSep]
      exact splitChar_of_not_mem (h l (by simp))
    | cons l2 rest2 =>
      have hj : joinSep c (l :: l2 :: rest2) = l ++ c :: joinSep c (l2 :: rest2) := rfl
      rw [hj, splitChar_append_cons _ (h l (by simp)),
        ih (by simp) (fun x hx => h x (by simp [hx]))]

theorem takeWhile_append_of_all {p : Char → Bool} {xs : List Char} (ys : List Char)
    (h : ∀ a ∈ xs, p a = true) :
    (xs ++ ys).takeWhile p = xs ++ ys.takeWhile p := by
  induction xs with
  | nil => simp
  | cons a rest ih =>
    simp only [List.cons_append, List.takeWhile_cons, h a (by simp), if_true]
    simp [ih (fun b hb => h b (by simp [hb]))]

theorem drop_length_append (xs ys : List Char) : (xs ++ ys).drop xs.length = ys := by
  simp

/-! ### Paths: printing and parsing round trip -/

/-- A path component that renders and parses unambiguously inside a textual
`RECORD`: nonempty, and free of the separator characters. -/
def goodComponent (x : String) : Prop :=
  x.data ≠ [] ∧ ∀ c ∈ x.data, c ≠ '/' ∧ c ≠ ',' ∧ c ≠ '\n'

instance (x : String) : Decidable (goodComponent x) := by
  unfold goodComponent
  infer_instance

/-- A path all of whose components are good. -/
def goodPath (p : FsPath) : Prop := ∀ x ∈ p, goodComponent x

instance (p : FsPath) : Decidable (goodPath p) := by
  unfold goodPath
  infer_instance

theorem sitePackages_goodPath : goodPath sitePackages := by decide

theorem metadataDirOf_ne_nil (name version : String) : metadataDirOf name version ≠ [] := by
  simp [metadataDirOf, sitePackages]

theorem mem_joinSep {c d : Char} {ls : List (List Char)} (hcd : d ≠ c)
    (h : ∀ l ∈ ls, d ∉ l) : d ∉ joinSep c ls := by
  induction ls with
  | nil => simp [joinSep]
  | cons l rest ih =>
    cases rest with
    | nil => simpa [joinSep] using h l (by simp)
    | cons l2 rest2 =>
      have hj : joinSep c (l :: l2 :: rest2) = l ++ c :: joinSep c (l2 :: rest2) := rfl
      rw [hj]
      simp only [List.mem_append, List.mem_cons, not_or]
      exact ⟨h l (by simp), hcd, ih (fun x hx => h x (by simp [hx]))⟩

theorem not_mem_pathChars {d : Char} {p : FsPath} (hd : d ≠ '/')
    (h : ∀ x ∈ p, d ∉ x.data) : d ∉ pathChars p := by
  unfold pathChars
  simp only [List.mem_cons, not_or]
  refine ⟨hd, mem_joinSep hd ?_⟩
  intro l hl
  rw [List.mem_map] at hl
  obtain ⟨x, hx, rfl⟩ := hl
  exact h x hx

theorem goodPath_no_slash {p : FsPath} (h : goodPath p) : ∀ x ∈ p, '/' ∉ x.data := by
  intro x hx hmem
  exact ((h x hx).2 '/' hmem).1 rfl

theorem goodPath_newline_not_mem {p : FsPath} (h : goodPath p) : '\n' ∉ pathChars p := by
  refine not_mem_pathChars (by decide) ?_
  intro x hx hmem
  exact ((h x hx).2 '\n' hmem).2.2 rfl

theorem goodPath_comma_not_mem {p : FsPath} (h : goodPath p) : ',' ∉ pathChars p := by
  refine not_mem_pathChars (by decide) ?_
  intro x hx hmem
  exact ((h x hx).2 ',' hmem).2.1 rfl

theorem parsePathChars_pathChars {p : FsPath} (h : goodPath p) :
    parsePathChars (pathChars p) = p := by
  unfold parsePathChars pathChars
  have h1 : splitChar '/' ('/' :: joinSep '/' (p.map String.data)) =
      [] :: splitChar '/' (joinSep '/' (p.map String.data)) := by
    simp [splitChar]
  rw [h1]
  cases hp : p with
  | nil => simp [joinSep, splitChar]
  | cons x xs =>
    rw [← hp]
    have hmapne : p.map String.data ≠ [] := by simp [hp]
    have hnos : ∀ l ∈ p.map String.data, '/' ∉ l := by
      intro l hl
      rw [List.mem_map] at hl
      obtain ⟨y, hy, rfl⟩ := hl
      exact goodPath_no_slash h y hy
    rw [splitChar_joinSep hmapne hnos]
    have hfil : ((([] : List Char) :: p.map String.data).filter (fun l => !l.isEmpty)) =
        p.map String.data := by
      simp only [List.filter_cons]
      have : (!(List.isEmpty ([] : List Char))) = false := by simp
      rw [this]
      exact List.filter_eq_self.2 (by
        intro l hl
        rw [List.mem_map] at hl
        obtain ⟨y, hy, rfl⟩ := hl
        have := (h y hy).1
        simpa [List.isEmpty_iff] using this)
    rw [hfil, List.map_map]
    have : (String.mk ∘ String.data) = id := by
      funext z
      rfl
    rw [this, List.map_id]

/-! ### Decimal digits -/

theorem natCharsAux_digits (fuel : Nat) :
    ∀ n, ∀ c ∈ natCharsAux fuel n, 48 ≤ c.toNat ∧ c.toNat ≤ 57 := by
  induction fuel with
  | zero =>
    intro n c hc
    cases hc
  | succ fuel ih =>
    intro n c hc
    unfold natCharsAux at hc
    by_cases h : n < 10
    · rw [if_pos h] at hc
      simp only [List.mem_singleton] at hc
      subst hc
      interval_cases n <;> simp
    · rw [if_neg h] at hc
      rw [List.mem_append] at hc
      rcases hc with hc | hc
      · exact ih (n / 10) c hc
      · simp only [List.mem_singleton] at hc
        subst hc
        have h10 : n % 10 < 10 := Nat.mod_lt _ (by omega)
        interval_cases hm : n % 10 <;> simp

theorem natChars_digits (n : Nat) : ∀ c ∈ natChars n, 48 ≤ c.toNat ∧ c.toNat ≤ 57 :=
  natCharsAux_digits (n + 1) n

theorem natChars_not_newline {n : Nat} : '\n' ∉ natChars n := by
  intro hmem
  have := natChars_digits n _ hmem
  simp at this

theorem natChars_not_comma {n : Nat} : ',' ∉ natChars n := by
  intro hmem
  have := natChars_digits n _ hmem
  simp at this

/-! ### Filesystem lemmas -/

theorem findEntry_filter_of_keep {q : FsPath} {keep : FsPath × String → Bool}
    (l : List (FsPath × String)) (h : ∀ e : FsPath × String, e.1 = q → keep e = true) :
    (l.filter keep).find? (fun e => e.1 == q) = l.find? (fun e => e.1 == q) := by
  induction l with
  | nil => rfl
  | cons e rest ih =>
    by_cases he : e.1 = q
    · have hk := h e he
      simp [List.filter_cons, hk, List.find?_cons, he, ih]
    · have hne : (e.1 == q) = false := by simp [he]
      by_cases hk : keep e = true
      · simp [List.filter_cons, hk, List.find?_cons, hne, ih]
      · simp only [Bool.not_eq_true] at hk
        simp [List.filter_cons, hk, List.find?_cons, hne, ih]

theorem findEntry_filter_of_drop {q : FsPath} {keep : FsPath × String → Bool}
    (l : List (FsPath × String)) (h : ∀ e : FsPath × String, e.1 = q → keep e = false) :
    (l.filter keep).find? (fun e => e.1 == q) = none := by
  induction l with
  | nil => rfl
  | cons e rest ih =>
    by_cases he : e.1 = q
    · have hk := h e he
      simp [List.filter_cons, hk, ih]
    · have hne : (e.1 == q) = false := by simp [he]
      by_cases hk : keep e = true
      · simp [List.filter_cons, hk, List.find?_cons, hne, ih]
      · simp only [Bool.not_eq_true] at hk
        simp [List.filter_cons, hk, ih]

theorem FS.read_write_self (fs : FS) (p : FsPath) (c : String) :
    (fs.write p c).read p = some c := by
  simp [FS.read, FS.write, List.find?_cons]

theorem FS.read_write_ne (fs : FS) {p q : FsPath} (c : String) (h : q ≠ p) :
    (fs.write p c).read q = fs.read q := by
  have : (p == q) = false := beq_eq_false_iff_ne.2 (fun he => h he.symm)
  simp [FS.read, FS.write, List.find?_cons, this]

theorem FS.dirs_write (fs : FS) (p : FsPath) (c : String) :
    (fs.write p c).dirs = fs.dirs := rfl

theorem FS.read_erase_self (fs : FS) (p : FsPath) : (fs.erase p).read p = none := by
  unfold FS.read FS.erase
  rw [findEntry_filter_of_drop]
  · rfl
  · intro e he
    simp [he]

theorem FS.read_erase_ne (fs : FS) {p q : FsPath} (h : q ≠ p) :
    (fs.erase p).read q = fs.read q := by
  unfold FS.read FS.erase
  rw [findEntry_filter_of_keep]
  intro e he
  subst he
  simp [fun hq : e.1 = p => h hq]

theorem FS.dirs_erase (fs : FS) (p : FsPath) : (fs.erase p).dirs = fs.dirs := rfl

theorem read_rmtreeFS_outside (fs : FS) {p q : FsPath} (h : ¬ p <+: q) :
    (rmtreeFS fs p).read q = fs.read q := by
  unfold FS.read rmtreeFS
  rw [findEntry_filter_of_keep]
  intro e he
  subst he
  cases hb : List.isPrefixOf p e.1 with
  | false => simp [hb]
  | true => exact absurd ( List.isPrefixOf_iff_prefix.1 hb) h

theorem read_rmtreeFS_inside (fs : FS) {p q : FsPath} (h : p <+: q) :
    (rmtreeFS fs p).read q = none := by
  unfold FS.read rmtreeFS
  rw [findEntry_filter_of_drop]
  · rfl
  · intro e he
    subst he
    simp [ List.isPrefixOf_iff_prefix.2 h]

theorem mem_dirs_rmtreeFS {fs : FS} {p q : FsPath} :
    q ∈ (rmtreeFS fs p).dirs ↔ q ∈ fs.dirs ∧ ¬ p <+: q := by
  unfold rmtreeFS
  rw [List.mem_filter]
  constructor
  · rintro ⟨h1, h2⟩
    refine ⟨h1, fun hp => ?_⟩
    rw [← List.isPrefixOf_iff_prefix] at hp
    simp [hp] at h2
  · rintro ⟨h1, h2⟩
    refine ⟨h1, ?_⟩
    cases hb : List.isPrefixOf p q with
    | false => simp [hb]
    | true => exact absurd ( List.isPrefixOf_iff_prefix.1 hb) h2

theorem contains_iff_memF {l : List FsPath} {p : FsPath} : l.contains p = true ↔ p ∈ l := by
  simp

theorem FS.files_addDir (fs : FS) (p : FsPath) : (fs.addDir p).files = fs.files := by
  unfold FS.addDir
  split <;> rfl

theorem files_foldl_addDir (fs : FS) (ps : List FsPath) :
    (ps.foldl FS.addDir fs).files = fs.files := by
  induction ps generalizing fs with
  | nil => rfl
  | cons p rest ih => rw [List.foldl_cons, ih, FS.files_addDir]

theorem files_mkdirParents (fs : FS) (p : FsPath) :
    (mkdirParents fs p).files = fs.files := files_foldl_addDir fs (pathInits p)

theorem read_mkdirParents (fs : FS) (p q : FsPath) :
    (mkdirParents fs p).read q = fs.read q := by
  unfold FS.read
  rw [files_mkdirParents]

theorem mem_dirs_addDir_of_mem {fs : FS} {q : FsPath} (p : FsPath) (h : q ∈ fs.dirs) :
    q ∈ (fs.addDir p).dirs := by
  unfold FS.addDir
  split
  · exact h
  · simp [h]

theorem mem_dirs_addDir_self (fs : FS) (p : FsPath) : p ∈ (fs.addDir p).dirs := by
  unfold FS.addDir
  split
  · next hc => exact contains_iff_memF.1 hc
  · simp

theorem mem_dirs_foldl_addDir_of_mem {fs : FS} {q : FsPath} (ps : List FsPath)
    (h : q ∈ fs.dirs) : q ∈ ((ps.foldl FS.addDir fs).dirs) := by
  induction ps generalizing fs with
  | nil => exact h
  | cons p rest ih => exact ih (mem_dirs_addDir_of_mem p h)

theorem mem_dirs_foldl_addDir_of_elem {fs : FS} {q : FsPath} {ps : List FsPath}
    (h : q ∈ ps) : q ∈ ((ps.foldl FS.addDir fs).dirs) := by
  induction ps generalizing fs with
  | nil => cases h
  | cons p rest ih =>
    rcases List.mem_cons.1 h with rfl | h2
    · exact mem_dirs_foldl_addDir_of_mem rest (mem_dirs_addDir_self fs q)
    · exact ih h2

theorem mem_dirs_mkdirParents_of_mem {fs : FS} {q : FsPath} (p : FsPath)
    (h : q ∈ fs.dirs) : q ∈ (mkdirParents fs p).dirs :=
  mem_dirs_foldl_addDir_of_mem (pathInits p) h

theorem mem_dirs_mkdirParents_self (fs : FS) {p : FsPath} (h : p ≠ []) :
    p ∈ (mkdirParents fs p).dirs := by
  refine mem_dirs_foldl_addDir_of_elem ?_
  unfold pathInits
  rw [List.mem_map]
  have hlen : 0 < p.length := List.length_pos.2 h
  refine ⟨p.length - 1, by simp [List.mem_range]; omega, ?_⟩
  rw [Nat.sub_add_cancel hlen, List.take_length]

theorem dirs_foldl_addDir_shape (fs : FS) (ps : List FsPath) :
    ∃ L, (ps.foldl FS.addDir fs).dirs = fs.dirs ++ L ∧ ∀ e ∈ L, e ∈ ps := by
  induction ps generalizing fs with
  | nil => exact ⟨[], by simp⟩
  | cons p rest ih =>
    rw [List.foldl_cons]
    by_cases hc : fs.dirs.contains p = true
    · have ha : fs.addDir p = fs := by
        unfold FS.addDir
        rw [if_pos hc]
      rw [ha]
      obtain ⟨L, hL, hsub⟩ := ih fs
      exact ⟨L, hL, fun e he => by simp [hsub e he]⟩
    · have ha : fs.addDir p = { files := fs.files, dirs := fs.dirs ++ [p] } := by
        unfold FS.addDir
        rw [if_neg hc]
      rw [ha]
      obtain ⟨L, hL, hsub⟩ := ih { files := fs.files, dirs := fs.dirs ++ [p] }
      refine ⟨p :: L, ?_, ?_⟩
      · rw [hL]
        simp
      · intro e he
        rcases List.mem_cons.1 he with rfl | he2
        · simp
        · simp [hsub e he2]

theorem dirs_nodup_addDir {fs : FS} (p : FsPath) (h : fs.dirs.Nodup) :
    (fs.addDir p).dirs.Nodup := by
  unfold FS.addDir
  split
  · exact h
  · next hc =>
    have hnm : p ∉ fs.dirs := fun hm => hc (contains_iff_memF.2 hm)
    simp [List.nodup_append, h, hnm]

theorem dirs_nodup_foldl_addDir {fs : FS} (ps : List FsPath) (h : fs.dirs.Nodup) :
    ((ps.foldl FS.addDir fs).dirs).Nodup := by
  induction ps generalizing fs with
  | nil => exact h
  | cons p rest ih => exact ih (dirs_nodup_addDir p h)

theorem dirs_nodup_mkdirParents {fs : FS} (p : FsPath) (h : fs.dirs.Nodup) :
    (mkdirParents fs p).dirs.Nodup := dirs_nodup_foldl_addDir (pathInits p) h

theorem mem_pathInits {q p : FsPath} (h : q ∈ pathInits p) :
    q <+: p ∧ q ≠ [] := by
  unfold pathInits at h
  rw [List.mem_map] at h
  obtain ⟨i, hi, rfl⟩ := h
  rw [List.mem_range] at hi
  constructor
  · exact List.take_prefix _ _
  · have : (p.take (i + 1)).length = i + 1 := by
      rw [List.length_take]
      omega
    intro hnil
    rw [hnil] at this
    simp at this

/-! ### METADATA and RECORD: print and parse -/

theorem data_foldl_append (a : String) (l : List String) :
    (l.foldl (fun r s => r ++ s) a).data = a.data ++ (l.map String.data).flatten := by
  induction l generalizing a with
  | nil => simp
  | cons s rest ih => simp [ih, String.data_append, List.append_assoc]

theorem data_stringJoin (l : List String) :
    (String.join l).data = (l.map String.data).flatten := by
  have h := data_foldl_append "" l
  simpa [String.join] using h

theorem parseName_metadataText {name : String} (version : String)
    (ms : List (String × Option String)) (h : '\n' ∉ name.data) :
    parseName (metadataText name version ms) = name := by
  have hB : '\n' ∉ ("Name: ".data ++ name.data) := by
    intro hmem
    rcases List.mem_append.1 hmem with hm | hm
    · revert hm
      decide
    · exact h hm
  have hdata : (metadataText name version ms).data =
      "Metadata-Version: 1.1".data ++ '\n' :: (("Name: ".data ++ name.data) ++ '\n' ::
        ("Version: " ++ version ++ "\nSummary: " ++ name
          ++ " mock package generated by micropip\nAuthor-email: " ++ name
          ++ "@micro.pip.non-working-fake-host\n"
          ++ String.join (ms.map (fun m => "Provides:" ++ m.1 ++ "\n"))).data) := by
    unfold metadataText
    simp [String.data_append, List.append_assoc]
  unfold parseName
  rw [hdata, splitChar_append_cons _ (by decide), splitChar_append_cons _ hB]
  rw [List.find?_cons_of_neg _ (by decide),
    List.find?_cons_of_pos _ ( List.isPrefixOf_iff_prefix.2 (List.prefix_append _ _))]
  have hdrop : ("Name: ".data ++ name.data).drop 6 = name.data := by
    rw [show (6 : Nat) = ("Name: ".data).length from by decide, drop_length_append]
  simp [hdrop]

theorem data_recordLineOf (fs : FS) (p : FsPath) :
    (recordLineOf fs p).data =
      (pathChars p ++ ',' :: ',' :: natChars (stSize fs p)) ++ ['\n'] := by
  unfold recordLineOf pathToString
  simp [String.data_append, List.append_assoc]

theorem data_recordText_cons (fs : FS) (p : FsPath) (fl : List FsPath) (rf : FsPath) :
    (recordText fs (p :: fl) rf).data =
      (recordLineOf fs p).data ++ (recordText fs fl rf).data := by
  unfold recordText
  simp [data_stringJoin, String.data_append, List.append_assoc]

theorem not_newline_mem_lineChars {fs : FS} {p : FsPath} (h : goodPath p) :
    '\n' ∉ pathChars p ++ ',' :: ',' :: natChars (stSize fs p) := by
  intro hmem
  rcases List.mem_append.1 hmem with hm | hm
  · exact goodPath_newline_not_mem h hm
  · rcases List.mem_cons.1 hm with hc | hm2
    · exact absurd hc (by decide)
    · rcases List.mem_cons.1 hm2 with hc | hm3
      · exact absurd hc (by decide)
      · exact natChars_not_newline hm3

theorem recordText_split (fs : FS) (fl : List FsPath) (rf : FsPath)
    (hfl : ∀ p ∈ fl, goodPath p) (hrf : goodPath rf) :
    splitChar '\n' ((recordText fs fl rf).data) =
      (fl.map (fun p => pathChars p ++ ',' :: ',' :: natChars (stSize fs p)))
        ++ [pathChars rf ++ [',', ','], []] := by
  induction fl with
  | nil =>
    have hdata : (recordText fs [] rf).data = (pathChars rf ++ [',', ',']) ++ '\n' :: [] := by
      unfold recordText pathToString
      simp [String.join, String.data_append, List.append_assoc]
    rw [hdata, splitChar_append_cons]
    · rfl
    · intro hmem
      rcases List.mem_append.1 hmem with hm | hm
      · exact goodPath_newline_not_mem hrf hm
      · revert hm
        decide
  | cons p rest ih =>
    rw [data_recordText_cons, data_recordLineOf, List.append_assoc, List.singleton_append,
      splitChar_append_cons _ (not_newline_mem_lineChars (hfl p (by simp)))]
    rw [ih (fun q hq => hfl q (by simp [hq]))]
    rfl

theorem takeWhile_comma_lineChars {p : FsPath} (cs : List Char) (h : goodPath p) :
    (pathChars p ++ ',' :: cs).takeWhile (fun c => c != ',') = pathChars p := by
  rw [takeWhile_append_of_all]
  · simp [List.takeWhile_cons]
  · intro a ha
    have := goodPath_comma_not_mem h
    simp only [bne_iff_ne, ne_eq, decide_eq_true_eq]
    intro hac
    exact this (hac ▸ ha)

theorem parseRecord_recordText (fs : FS) {fl : List FsPath} {rf : FsPath}
    (hfl : ∀ p ∈ fl, goodPath p) (hrf : goodPath rf) :
    parseRecord (recordText fs fl rf) = fl ++ [rf] := by
  unfold parseRecord
  rw [recordText_split fs fl rf hfl hrf]
  rw [List.filter_append]
  have h1 : (fl.map (fun p => pathChars p ++ ',' :: ',' :: natChars (stSize fs p))).filter
      (fun l => !l.isEmpty) = fl.map (fun p => pathChars p ++ ',' :: ',' :: natChars (stSize fs p)) := by
    refine List.filter_eq_self.2 ?_
    intro l hl
    rw [List.mem_map] at hl
    obtain ⟨q, hq, rfl⟩ := hl
    simp [pathChars]
  have h2 : ([pathChars rf ++ [',', ','], ([] : List Char)]).filter (fun l => !l.isEmpty) =
      [pathChars rf ++ [',', ',']] := by
    simp [List.filter_cons, pathChars]
  rw [h1, h2, List.map_append, List.map_map]
  congr 1
  · rw [show ((fun l => parsePathChars (List.takeWhile (fun c => c != ',') l)) ∘
        (fun p => pathChars p ++ ',' :: ',' :: natChars (stSize fs p))) =
        (fun p : FsPath => parsePathChars (List.takeWhile (fun c => c != ',')
          (pathChars p ++ ',' :: ',' :: natChars (stSize fs p)))) from rfl]
    have : ∀ p ∈ fl, parsePathChars (List.takeWhile (fun c => c != ',')
        (pathChars p ++ ',' :: ',' :: natChars (stSize fs p))) = p := by
      intro p hp
      rw [takeWhile_comma_lineChars _ (hfl p hp), parsePathChars_pathChars (hfl p hp)]
    calc fl.map _ = fl.map id := List.map_congr_left this
    _ = fl := List.map_id fl
  · rw [List.map_singleton, takeWhile_comma_lineChars _ hrf, parsePathChars_pathChars hrf]

/-! ### The module-writing loop of the persistent backend -/

theorem map_data_map_mk (l : List (List Char)) :
    (l.map String.mk).map String.data = l := by
  rw [List.map_map]
  have : (String.data ∘ String.mk) = id := by
    funext z
    rfl
  rw [this, List.map_id]

theorem splitDot_injective {a b : String} (h : splitDot a = splitDot b) : a = b := by
  unfold splitDot at h
  have h2 := congrArg (List.map String.data) h
  rw [map_data_map_mk, map_data_map_mk] at h2
  exact String.ext (splitChar_injective h2)

theorem initPathOf_injective {a b : String} (h : initPathOf a = initPathOf b) : a = b := by
  unfold initPathOf at h
  have h2 := List.append_cancel_right h
  exact splitDot_injective (List.append_cancel_left h2)

theorem foldl_addModuleFiles_cons (m : String × Option String)
    (rest : List (String × Option String)) (fs : FS) (fl : List FsPath) :
    (m :: rest).foldl addModuleFiles (fs, fl) =
      rest.foldl addModuleFiles
        ((mkdirParents fs (sitePackages ++ splitDot m.1)).write
          (sitePackages ++ splitDot m.1 ++ ["__init__.py"]) (dedent (m.2.getD "")),
         fl ++ [sitePackages ++ splitDot m.1 ++ ["__init__.py"]]) := rfl

theorem foldl_addModuleFiles_snd (ms : List (String × Option String))
    (fs : FS) (fl : List FsPath) :
    (ms.foldl addModuleFiles (fs, fl)).2 = fl ++ ms.map (fun m => initPathOf m.1) := by
  induction ms generalizing fs fl with
  | nil => simp
  | cons m rest ih =>
    rw [foldl_addModuleFiles_cons, ih]
    simp [initPathOf]

theorem foldl_addModuleFiles_read_ne (ms : List (String × Option String))
    (fs : FS) (fl : List FsPath) {q : FsPath}
    (h : ∀ m ∈ ms, q ≠ initPathOf m.1) :
    ((ms.foldl addModuleFiles (fs, fl)).1).read q = fs.read q := by
  induction ms generalizing fs fl with
  | nil => rfl
  | cons m rest ih =>
    rw [foldl_addModuleFiles_cons]
    rw [ih _ _ (fun m2 hm2 => h m2 (by simp [hm2]))]
    have hqp : q ≠ sitePackages ++ splitDot m.1 ++ ["__init__.py"] := h m (by simp)
    rw [FS.read_write_ne _ _ hqp, read_mkdirParents]

theorem foldl_addModuleFiles_read_mem (ms : List (String × Option String))
    (fs : FS) (fl : List FsPath) {m : String × Option String}
    (hm : m ∈ ms) (hnd : (ms.map Prod.fst).Nodup) :
    ((ms.foldl addModuleFiles (fs, fl)).1).read (initPathOf m.1) =
      some (dedent (m.2.getD "")) := by
  induction ms generalizing fs fl with
  | nil => cases hm
  | cons mh rest ih =>
    rw [List.map_cons, List.nodup_cons] at hnd
    rcases List.mem_cons.1 hm with rfl | hmem
    · rw [foldl_addModuleFiles_cons]
      rw [foldl_addModuleFiles_read_ne]
      · exact FS.read_write_self _ _ _
      · intro m2 hm2 heq
        have : m.1 = m2.1 := initPathOf_injective heq
        exact hnd.1 (this ▸ List.mem_map_of_mem Prod.fst hm2)
    · rw [foldl_addModuleFiles_cons]
      exact ih _ _ hmem hnd.2

theorem dirs_foldl_addModuleFiles_of_mem (ms : List (String × Option String))
    (fs : FS) (fl : List FsPath) {q : FsPath} (h : q ∈ fs.dirs) :
    q ∈ ((ms.foldl addModuleFiles (fs, fl)).1).dirs := by
  induction ms generalizing fs fl with
  | nil => exact h
  | cons m rest ih =>
    rw [foldl_addModuleFiles_cons]
    exact ih _ _ (mem_dirs_mkdirParents_of_mem _ h)

theorem dirs_foldl_addModuleFiles_of_elem (ms : List (String × Option String))
    (fs : FS) (fl : List FsPath) {m : String × Option String} (hm : m ∈ ms)
    (hne : sitePackages ++ splitDot m.1 ≠ []) :
    sitePackages ++ splitDot m.1 ∈ ((ms.foldl addModuleFiles (fs, fl)).1).dirs := by
  induction ms generalizing fs fl with
  | nil => cases hm
  | cons mh rest ih =>
    rcases List.mem_cons.1 hm with rfl | hmem
    · rw [foldl_addModuleFiles_cons]
      exact dirs_foldl_addModuleFiles_of_mem _ _ _ (mem_dirs_mkdirParents_self _ hne)
    · rw [foldl_addModuleFiles_cons]
      exact ih _ _ hmem

theorem dirs_foldl_addModuleFiles_shape (ms : List (String × Option String))
    (fs : FS) (fl : List FsPath) :
    ∃ L, ((ms.foldl addModuleFiles (fs, fl)).1).dirs = fs.dirs ++ L ∧
      ∀ e ∈ L, ∃ m ∈ ms, e ∈ pathInits (sitePackages ++ splitDot m.1) := by
  induction ms generalizing fs fl with
  | nil => exact ⟨[], by simp⟩
  | cons mh rest ih =>
    rw [foldl_addModuleFiles_cons]
    obtain ⟨L1, hL1, hsub1⟩ :=
      dirs_foldl_addDir_shape fs (pathInits (sitePackages ++ splitDot mh.1))
    obtain ⟨L2, hL2, hsub2⟩ := ih
      ((mkdirParents fs (sitePackages ++ splitDot mh.1)).write
        (sitePackages ++ splitDot mh.1 ++ ["__init__.py"]) (dedent (mh.2.getD "")))
      (fl ++ [sitePackages ++ splitDot mh.1 ++ ["__init__.py"]])
    refine ⟨L1 ++ L2, ?_, ?_⟩
    · rw [hL2, FS.dirs_write]
      show (mkdirParents fs (sitePackages ++ splitDot mh.1)).dirs ++ L2 = _
      unfold mkdirParents
      rw [hL1, List.append_assoc]
    · intro e he
      rcases List.mem_append.1 he with he | he
      · exact ⟨mh, by simp, hsub1 e he⟩
      · obtain ⟨m, hm, hmem⟩ := hsub2 e he
        exact ⟨m, by simp [hm], hmem⟩

theorem dirs_nodup_foldl_addModuleFiles (ms : List (String × Option String))
    (fs : FS) (fl : List FsPath) (h : fs.dirs.Nodup) :
    ((ms.foldl addModuleFiles (fs, fl)).1).dirs.Nodup := by
  induction ms generalizing fs fl with
  | nil => exact h
  | cons m rest ih =>
    rw [foldl_addModuleFiles_cons]
    exact ih _ _ (dirs_nodup_mkdirParents _ h)

theorem dedent_empty : dedent "" = "" := by decide

theorem dedent_getD_empty (o : Option String) (h : o = none ∨ o = some "") :
    dedent (o.getD "") = "" := by
  rcases h with rfl | rfl <;> simp [dedent_empty]

/-! ### The sys.path membership guard -/

/-- Whether every entry of the given `sys.path` is a string (always true in
a real interpreter, where `sys.path` holds strings only). -/
def onlyStrEntries (l : List PyPathOrStr) : Bool :=
  l.all (fun e => match e with | .str _ => true | .path _ => false)

theorem any_pyEq_path_eq_false {l : List PyPathOrStr} (h : onlyStrEntries l = true)
    (p : FsPath) : (l.any (fun e => pyEq e (.path p))) = false := by
  rw [List.any_eq_false]
  intro e he
  have h2 := List.all_eq_true.1 h e he
  cases e with
  | str t => simp [pyEq]
  | path q => simp at h2

/-! ### Shape of a successful `add_mock_package` call -/

/-- The filesystem produced by a successful persistent add (the write
pipeline of the persistent branch, with the module list already
defaulted). -/
def addedFS (fs0 : FS) (name version : String) (ms : List (String × Option String)) : FS :=
  let metadataDir := metadataDirOf name version
  let metadataFile := metadataDir ++ ["METADATA"]
  let recordFile := metadataDir ++ ["RECORD"]
  let installerFile := metadataDir ++ ["INSTALLER"]
  let fs1 := mkdirParents fs0 metadataDir
  let fs2 := fs1.write metadataFile (metadataText name version ms)
  let acc := ms.foldl addModuleFiles (fs2, [metadataFile, installerFile])
  let fs3 := acc.1.write installerFile MOCK_INSTALL_NAME_PERSISTENT
  fs3.write recordFile (recordText fs3 acc.2 recordFile)

theorem add_persistent_ok (s : State) (name version : String)
    (mso : Option (List (String × Option String)))
    (hsp : pathExistsB s.fs sitePackages = true)
    (hmd : pathExistsB s.fs (metadataDirOf name version) = false)
    (hstr : onlyStrEntries s.sysPath = true) :
    add_mock_package s name version mso true =
      (.ok (), { s with
        fs := addedFS s.fs name version (mso.getD [(name, some "")]),
        sysPath := s.sysPath ++ [.str (pathToString sitePackages)] }) := by
  unfold add_mock_package addedFS
  simp only [hsp, if_true, hmd, any_pyEq_path_eq_false hstr, if_false, Bool.false_eq_true]

theorem add_memory_eq (s : State) (name version : String)
    (mso : Option (List (String × Option String))) :
    add_mock_package s name version mso false =
      (.ok (), { s with memDists := (addInMemoryDistribution s.memDists name
        [("METADATA", metadataText name version (mso.getD [(name, some "")])),
         ("INSTALLER", MOCK_INSTALL_NAME_MEMORY)] (mso.getD [(name, some "")])) }) := rfl

theorem append_singleton_ne {p q : List String} {a b : String} (h : a ≠ b) :
    p ++ [a] ≠ q ++ [b] := by
  intro he
  have h2 := congrArg List.getLast? he
  rw [List.getLast?_append, List.getLast?_append] at h2
  simp at h2
  exact h h2

theorem metadataFile_ne_initPath (name version mod : String) :
    metadataDirOf name version ++ ["METADATA"] ≠ initPathOf mod := by
  unfold initPathOf
  exact append_singleton_ne (by decide)

theorem installerFile_ne_initPath (name version mod : String) :
    metadataDirOf name version ++ ["INSTALLER"] ≠ initPathOf mod := by
  unfold initPathOf
  exact append_singleton_ne (by decide)

theorem recordFile_ne_initPath (name version mod : String) :
    metadataDirOf name version ++ ["RECORD"] ≠ initPathOf mod := by
  unfold initPathOf
  exact append_singleton_ne (by decide)

theorem addedFS_read_metadata (fs0 : FS) (name version : String)
    (ms : List (String × Option String)) :
    (addedFS fs0 name version ms).read (metadataDirOf name version ++ ["METADATA"]) =
      some (metadataText name version ms) := by
  unfold addedFS
  rw [FS.read_write_ne _ _ (by exact append_singleton_ne (by decide))]
  rw [FS.read_write_ne _ _ (by exact append_singleton_ne (by decide))]
  rw [foldl_addModuleFiles_read_ne _ _ _ (fun m _ => metadataFile_ne_initPath name version m.1)]
  exact FS.read_write_self _ _ _

theorem addedFS_read_installer (fs0 : FS) (name version : String)
    (ms : List (String × Option String)) :
    (addedFS fs0 name version ms).read (metadataDirOf name version ++ ["INSTALLER"]) =
      some MOCK_INSTALL_NAME_PERSISTENT := by
  unfold addedFS
  rw [FS.read_write_ne _ _ (by exact append_singleton_ne (by decide))]
  exact FS.read_write_self _ _ _

theorem addedFS_read_record (fs0 : FS) (name version : String)
    (ms : List (String × Option String)) :
    (addedFS fs0 name version ms).read (metadataDirOf name version ++ ["RECORD"]) =
      some (recordText
        (((ms.foldl addModuleFiles
            ((mkdirParents fs0 (metadataDirOf name version)).write
              (metadataDirOf name version ++ ["METADATA"]) (metadataText name version ms),
             [metadataDirOf name version ++ ["METADATA"],
              metadataDirOf name version ++ ["INSTALLER"]])).1).write
          (metadataDirOf name version ++ ["INSTALLER"]) MOCK_INSTALL_NAME_PERSISTENT)
        ([metadataDirOf name version ++ ["METADATA"],
          metadataDirOf name version ++ ["INSTALLER"]]
            ++ ms.map (fun m => initPathOf m.1))
        (metadataDirOf name version ++ ["RECORD"])) := by
  unfold addedFS
  rw [FS.read_write_self, foldl_addModuleFiles_snd]

theorem addedFS_read_init (fs0 : FS) (name version : String)
    {ms : List (String × Option String)} {m : String × Option String}
    (hm : m ∈ ms) (hnd : (ms.map Prod.fst).Nodup) :
    (addedFS fs0 name version ms).read (initPathOf m.1) =
      some (dedent (m.2.getD "")) := by
  unfold addedFS
  rw [FS.read_write_ne _ _ (fun he => recordFile_ne_initPath name version m.1 he.symm)]
  rw [FS.read_write_ne _ _ (fun he => installerFile_ne_initPath name version m.1 he.symm)]
  exact foldl_addModuleFiles_read_mem _ _ _ hm hnd

theorem addedFS_read_other (fs0 : FS) (name version : String)
    (ms : List (String × Option String)) {q : FsPath}
    (hq1 : q ≠ metadataDirOf name version ++ ["METADATA"])
    (hq2 : q ≠ metadataDirOf name version ++ ["INSTALLER"])
    (hq3 : q ≠ metadataDirOf name version ++ ["RECORD"])
    (hq4 : ∀ m ∈ ms, q ≠ initPathOf m.1) :
    (addedFS fs0 name version ms).read q = fs0.read q := by
  unfold addedFS
  rw [FS.read_write_ne _ _ hq3, FS.read_write_ne _ _ hq2,
    foldl_addModuleFiles_read_ne _ _ _ hq4, FS.read_write_ne _ _ hq1, read_mkdirParents]

theorem addedFS_dirs_shape (fs0 : FS) (name version : String)
    (ms : List (String × Option String)) :
    ∃ L, (addedFS fs0 name version ms).dirs = fs0.dirs ++ L ∧
      ∀ e ∈ L, e ∈ pathInits (metadataDirOf name version) ∨
        ∃ m ∈ ms, e ∈ pathInits (sitePackages ++ splitDot m.1) := by
  unfold addedFS
  simp only [FS.dirs_write]
  obtain ⟨L1, hL1, hsub1⟩ := dirs_foldl_addDir_shape fs0 (pathInits (metadataDirOf name version))
  obtain ⟨L2, hL2, hsub2⟩ := dirs_foldl_addModuleFiles_shape ms
    ((mkdirParents fs0 (metadataDirOf name version)).write
      (metadataDirOf name version ++ ["METADATA"]) (metadataText name version ms))
    [metadataDirOf name version ++ ["METADATA"], metadataDirOf name version ++ ["INSTALLER"]]
  refine ⟨L1 ++ L2, ?_, ?_⟩
  · rw [hL2, FS.dirs_write]
    show (mkdirParents fs0 (metadataDirOf name version)).dirs ++ L2 = _
    unfold mkdirParents
    rw [hL1, List.append_assoc]
  · intro e he
    rcases List.mem_append.1 he with he | he
    · exact Or.inl (hsub1 e he)
    · exact Or.inr (hsub2 e he)

theorem addedFS_mem_metadataDir (fs0 : FS) (name version : String)
    (ms : List (String × Option String)) :
    metadataDirOf name version ∈ (addedFS fs0 name version ms).dirs := by
  unfold addedFS
  simp only [FS.dirs_write]
  exact dirs_foldl_addModuleFiles_of_mem _ _ _
    (show _ ∈ ((mkdirParents fs0 (metadataDirOf name version)).write _ _).dirs from
      mem_dirs_mkdirParents_self _ (metadataDirOf_ne_nil name version))

theorem addedFS_mem_moduleDir (fs0 : FS) (name version : String)
    {ms : List (String × Option String)} {m : String × Option String} (hm : m ∈ ms) :
    sitePackages ++ splitDot m.1 ∈ (addedFS fs0 name version ms).dirs := by
  unfold addedFS
  simp only [FS.dirs_write]
  exact dirs_foldl_addModuleFiles_of_elem _ _ _ hm (by simp [sitePackages])

theorem addedFS_mem_dirs_of_mem (fs0 : FS) (name version : String)
    (ms : List (String × Option String)) {q : FsPath} (h : q ∈ fs0.dirs) :
    q ∈ (addedFS fs0 name version ms).dirs := by
  unfold addedFS
  simp only [FS.dirs_write]
  exact dirs_foldl_addModuleFiles_of_mem _ _ _
    (mem_dirs_mkdirParents_of_mem _ h)

theorem addedFS_dirs_nodup (fs0 : FS) (name version : String)
    (ms : List (String × Option String)) (h : fs0.dirs.Nodup) :
    (addedFS fs0 name version ms).dirs.Nodup := by
  unfold addedFS
  simp only [FS.dirs_write]
  exact dirs_nodup_foldl_addModuleFiles _ _ _ (dirs_nodup_mkdirParents _ h)

/-! ### Discovery of distributions after an add -/

theorem splitChar_pieces_not_mem (c : Char) (l : List Char) :
    ∀ piece ∈ splitChar c l, c ∉ piece := by
  induction l with
  | nil =>
    intro piece hp
    simp only [splitChar, List.mem_singleton] at hp
    simp [hp]
  | cons a rest ih =>
    intro piece hp
    simp only [splitChar] at hp
    by_cases h : a = c
    · rw [if_pos h] at hp
      rcases List.mem_cons.1 hp with rfl | hp2
      · simp
      · exact ih piece hp2
    · rw [if_neg h] at hp
      cases hs : splitChar c rest with
      | nil => exact absurd hs (splitChar_ne_nil c rest)
      | cons x xs =>
        rw [hs] at hp
        rcases List.mem_cons.1 hp with rfl | hp2
        · intro hmem
          rcases List.mem_cons.1 hmem with rfl | hmem2
          · exact h rfl
          · exact ih x (hs ▸ List.mem_cons_self x xs) hmem2
        · exact ih piece (hs ▸ List.mem_cons.2 (Or.inr hp2))

theorem pathExistsB_false_iff {fs : FS} {p : FsPath} :
    pathExistsB fs p = false ↔ p ∉ fs.dirs ∧ fs.read p = none := by
  unfold pathExistsB
  rw [Bool.or_eq_false_iff]
  constructor
  · rintro ⟨h1, h2⟩
    refine ⟨?_, ?_⟩
    · intro hm
      rw [contains_iff_memF.2 hm] at h1
      cases h1
    · cases hr : fs.read p with
      | none => rfl
      | some c =>
        rw [hr] at h2
        simp at h2
  · rintro ⟨h1, h2⟩
    constructor
    · cases hc : fs.dirs.contains p with
      | false => rfl
      | true => exact absurd (contains_iff_memF.1 hc) h1
    · simp [h2]

theorem getLastD_concat (q : List String) (c d : String) : (q ++ [c]).getLastD d = c := by
  induction q with
  | nil => rfl
  | cons x xs ih => simp [List.getLastD, ih]

theorem isDistInfoDirOf_metadataDir (name version : String) :
    isDistInfoDirOf sitePackages (metadataDirOf name version) = true := by
  unfold isDistInfoDirOf metadataDirOf
  rw [Bool.and_eq_true]
  constructor
  · simp [List.dropLast_concat]
  · rw [getLastD_concat]
    refine List.isSuffixOf_iff_suffix.2 ?_
    rw [show (name ++ "-" ++ version ++ ".dist-info").data
        = (name ++ "-" ++ version).data ++ ".dist-info".data from by
          simp [String.data_append]]
    exact List.suffix_append _ _

theorem eq_metadataDir_of_prefix {e : FsPath} {name version : String}
    (hpre : e <+: metadataDirOf name version) (hlast : e.dropLast = sitePackages) (hne : e ≠ []) :
    e = metadataDirOf name version := by
  refine hpre.eq_of_length ?_
  have h1 : e.length = sitePackages.length + 1 := by
    have h2 := congrArg List.length hlast
    rw [List.length_dropLast] at h2
    have h3 : 0 < e.length := List.length_pos.2 hne
    omega
  rw [h1]
  unfold metadataDirOf
  simp

theorem not_distInfo_of_moduleInits {e : FsPath} {m : String}
    (he : e ∈ pathInits (sitePackages ++ splitDot m)) :
    isDistInfoDirOf sitePackages e = false := by
  obtain ⟨hpre, hne⟩ := mem_pathInits he
  cases hb : isDistInfoDirOf sitePackages e with
  | false => rfl
  | true =>
    exfalso
    unfold isDistInfoDirOf at hb
    rw [Bool.and_eq_true] at hb
    have hdl : e.dropLast = sitePackages := by simpa using hb.1
    have hsuf : ".dist-info".data <:+ (e.getLastD "").data :=
      List.isSuffixOf_iff_suffix.1 hb.2
    have hlen : e.length = sitePackages.length + 1 := by
      have h2 := congrArg List.length hdl
      rw [List.length_dropLast] at h2
      have h3 : 0 < e.length := List.length_pos.2 hne
      omega
    -- the final component of `e` is the first piece of the dotted module
    -- name, which contains no dot, yet ends in ".dist-info"
    have hx : ∃ x, e = sitePackages ++ [x] ∧ x ∈ splitDot m := by
      cases hsd : splitDot m with
      | nil =>
        exfalso
        unfold splitDot at hsd
        have := congrArg List.length hsd
        simp at this
        exact absurd this (splitChar_ne_nil '.' m.data)
      | cons x xs =>
        refine ⟨x, ?_, by simp [hsd]⟩
        have : e <+: sitePackages ++ [x] ∨ sitePackages ++ [x] <+: e := by
          have h1 : e <+: sitePackages ++ splitDot m := hpre
          have h2 : sitePackages ++ [x] <+: sitePackages ++ splitDot m := by
            refine (List.prefix_append_right_inj sitePackages).2 ?_
            simp [hsd]
          exact List.prefix_or_prefix_of_prefix h1 h2
        rcases this with h | h
        · refine h.eq_of_length ?_
          rw [hlen]
          simp
        · refine (h.eq_of_length ?_).symm
          rw [hlen]
          simp
    obtain ⟨x, rfl, hxmem⟩ := hx
    have hnodot : '.' ∉ x.data := by
      unfold splitDot at hxmem
      rw [List.mem_map] at hxmem
      obtain ⟨piece, hpmem, rfl⟩ := hxmem
      exact splitChar_pieces_not_mem '.' m.data piece hpmem
    rw [getLastD_concat] at hsuf
    have : '.' ∈ x.data := hsuf.subset (by decide)
    exact hnodot this

theorem filter_eq_singleton_of {α : Type} {l : List α} {a : α} {pred : α → Bool}
    (hnd : l.Nodup) (ha : a ∈ l) (hpa : pred a = true)
    (hother : ∀ b ∈ l, pred b = true → b = a) : l.filter pred = [a] := by
  induction l with
  | nil => cases ha
  | cons x xs ih =>
    rw [List.nodup_cons] at hnd
    rcases List.mem_cons.1 ha with rfl | hmem
    · rw [List.filter_cons, if_pos (by simp [hpa])]
      have : xs.filter pred = [] := by
        rw [List.filter_eq_nil_iff]
        intro b hb hpb
        exact hnd.1 ((hother b (by simp [hb]) hpb) ▸ hb)
      rw [this]
    · have hxa : x ≠ a := fun he => hnd.1 (he ▸ hmem)
      have hpx : pred x = false := by
        cases hp : pred x with
        | false => rfl
        | true => exact absurd (hother x (by simp) hp) hxa
      rw [List.filter_cons, if_neg (by simp [hpx])]
      exact ih hnd.2 hmem (fun b hb hpb => hother b (by simp [hb]) hpb)

theorem distInfo_child_cases {e : FsPath} {name version : String}
    {ms : List (String × Option String)}
    (he : e ∈ pathInits (metadataDirOf name version) ∨
      ∃ m ∈ ms, e ∈ pathInits (sitePackages ++ splitDot m.1))
    (hd : isDistInfoDirOf sitePackages e = true) : e = metadataDirOf name version := by
  rcases he with he | ⟨m, _, he⟩
  · obtain ⟨hpre, hne⟩ := mem_pathInits he
    unfold isDistInfoDirOf at hd
    rw [Bool.and_eq_true] at hd
    exact eq_metadataDir_of_prefix hpre (by simpa using hd.1) hne
  · rw [not_distInfo_of_moduleInits he] at hd
    cases hd

theorem persistentDists_addedFS (fs0 : FS) (name version : String)
    (ms : List (String × Option String))
    (hmd : pathExistsB fs0 (metadataDirOf name version) = false)
    (hnodup : fs0.dirs.Nodup) :
    persistentDists (addedFS fs0 name version ms) =
      (fs0.dirs.filter (isDistInfoDirOf sitePackages)).map
          (distOfDir (addedFS fs0 name version ms))
        ++ [distOfDir (addedFS fs0 name version ms) (metadataDirOf name version)] := by
  unfold persistentDists
  obtain ⟨L, hL, hsub⟩ := addedFS_dirs_shape fs0 name version ms
  rw [hL, List.filter_append]
  have hmem : metadataDirOf name version ∈ L := by
    have h1 := addedFS_mem_metadataDir fs0 name version ms
    rw [hL, List.mem_append] at h1
    rcases h1 with h1 | h1
    · exact absurd h1 ((pathExistsB_false_iff.1 hmd).1)
    · exact h1
  have hndL : L.Nodup := by
    have := addedFS_dirs_nodup fs0 name version ms hnodup
    rw [hL, List.nodup_append] at this
    exact this.2.1
  have hfil : L.filter (isDistInfoDirOf sitePackages) = [metadataDirOf name version] :=
    filter_eq_singleton_of hndL hmem (isDistInfoDirOf_metadataDir name version)
      (fun e he hp => distInfo_child_cases (hsub e he) hp)
  rw [hfil, List.map_append, List.map_singleton]

theorem distOfDir_addedFS_old (fs0 : FS) (name version : String)
    (ms : List (String × Option String)) {d : FsPath}
    (hdne : d ≠ metadataDirOf name version) :
    distOfDir (addedFS fs0 name version ms) d = distOfDir fs0 d := by
  unfold distOfDir
  rw [addedFS_read_other fs0 name version ms
      (fun he => hdne (List.append_cancel_right he))
      (append_singleton_ne (by decide))
      (append_singleton_ne (by decide))
      (fun m _ => append_singleton_ne (by decide)),
    addedFS_read_other fs0 name version ms
      (append_singleton_ne (by decide))
      (fun he => hdne (List.append_cancel_right he))
      (append_singleton_ne (by decide))
      (fun m _ => append_singleton_ne (by decide)),
    addedFS_read_other fs0 name version ms
      (append_singleton_ne (by decide))
      (append_singleton_ne (by decide))
      (fun he => hdne (List.append_cancel_right he))
      (fun m _ => append_singleton_ne (by decide))]

theorem persistentDists_addedFS_full (fs0 : FS) (name version : String)
    (ms : List (String × Option String))
    (hmd : pathExistsB fs0 (metadataDirOf name version) = false)
    (hnodup : fs0.dirs.Nodup) :
    persistentDists (addedFS fs0 name version ms) =
      persistentDists fs0
        ++ [distOfDir (addedFS fs0 name version ms) (metadataDirOf name version)] := by
  rw [persistentDists_addedFS fs0 name version ms hmd hnodup]
  congr 1
  unfold persistentDists
  apply List.map_congr_left
  intro d hd
  rw [List.mem_filter] at hd
  have hdne : d ≠ metadataDirOf name version :=
    fun he => (pathExistsB_false_iff.1 hmd).1 (he ▸ hd.1)
  exact distOfDir_addedFS_old fs0 name version ms hdne

/-! ### Good names and paths for the round trip -/

/-- A module name whose dot-separated pieces are all well formed. -/
def goodModuleName (n : String) : Prop := ∀ x ∈ splitDot n, goodComponent x

instance (n : String) : Decidable (goodModuleName n) := by
  unfold goodModuleName
  infer_instance

theorem goodPath_append {p q : FsPath} (hp : goodPath p) (hq : goodPath q) :
    goodPath (p ++ q) := by
  intro x hx
  rcases List.mem_append.1 hx with h | h
  · exact hp x h
  · exact hq x h

theorem goodPath_metadataDir {name version : String}
    (h : goodComponent (name ++ "-" ++ version ++ ".dist-info")) :
    goodPath (metadataDirOf name version) := by
  unfold metadataDirOf
  refine goodPath_append sitePackages_goodPath ?_
  intro x hx
  rw [List.mem_singleton] at hx
  exact hx ▸ h

theorem goodPath_distInfoFile {name version : String} {x : String}
    (h : goodComponent (name ++ "-" ++ version ++ ".dist-info"))
    (hx : goodComponent x) : goodPath (metadataDirOf name version ++ [x]) := by
  refine goodPath_append (goodPath_metadataDir h) ?_
  intro y hy
  rw [List.mem_singleton] at hy
  exact hy ▸ hx

theorem goodPath_initPath {n : String} (h : goodModuleName n) :
    goodPath (initPathOf n) := by
  unfold initPathOf
  refine goodPath_append (goodPath_append sitePackages_goodPath h) ?_
  intro y hy
  rw [List.mem_singleton] at hy
  subst hy
  refine ⟨by decide, by decide⟩

/-! ### `list_mock_packages` as a filter -/

/-- Whether an installer text is one of this subsystem's two tags. -/
def isMockInstaller (i : Option String) : Bool :=
  match i with
  | none => false
  | some installer =>
    installer == MOCK_INSTALL_NAME_PERSISTENT || installer == MOCK_INSTALL_NAME_MEMORY

theorem list_foldl_filter (l : List Dist) (acc : List String) :
    (l.foldl
      (fun packages dist =>
        match dist.installerText with
        | none => packages
        | some installer =>
          if installer == MOCK_INSTALL_NAME_PERSISTENT
              || installer == MOCK_INSTALL_NAME_MEMORY then
            packages ++ [dist.name]
          else packages)
      acc) =
      acc ++ (l.filter (fun d => isMockInstaller d.installerText)).map Dist.name := by
  induction l generalizing acc with
  | nil => simp
  | cons d rest ih =>
    rw [List.foldl_cons, ih, List.filter_cons]
    cases hi : d.installerText with
    | none => simp [isMockInstaller, hi]
    | some installer =>
      by_cases hb : (installer == MOCK_INSTALL_NAME_PERSISTENT
          || installer == MOCK_INSTALL_NAME_MEMORY) = true
      · simp [isMockInstaller, hi, hb]
      · rw [Bool.not_eq_true] at hb
        simp [isMockInstaller, hi, hb]

theorem list_mock_packages_filter (s : State) :
    list_mock_packages s =
      ((distributions s).filter (fun d => isMockInstaller d.installerText)).map Dist.name := by
  unfold list_mock_packages
  rw [list_foldl_filter]
  rfl

theorem mem_list_mock_packages {s : State} {n : String} :
    n ∈ list_mock_packages s ↔
      ∃ d ∈ distributions s, isMockInstaller d.installerText = true ∧ d.name = n := by
  rw [list_mock_packages_filter]
  simp only [List.mem_map, List.mem_filter]
  constructor
  · rintro ⟨d, ⟨hd, hm⟩, rfl⟩
    exact ⟨d, hd, hm, rfl⟩
  · rintro ⟨d, hd, hm, rfl⟩
    exact ⟨d, ⟨hd, hm⟩, rfl⟩

theorem find?_append_of_none {α : Type} {l1 l2 : List α} {p : α → Bool}
    (h : ∀ x ∈ l1, p x = false) :
    (l1 ++ l2).find? p = l2.find? p := by
  induction l1 with
  | nil => rfl
  | cons a rest ih =>
    rw [List.cons_append, List.find?_cons_of_neg _ (by simp [h a (by simp)])]
    exact ih (fun x hx => h x (by simp [hx]))

/-! ### Erasing and removing -/

theorem unlinkAll_ok (fl : List FsPath) (fs : FS)
    (hsome : ∀ p ∈ fl, (fs.read p).isSome = true) (hnd : fl.Nodup) :
    unlinkAll fs fl = (.ok (), fl.foldl FS.erase fs) := by
  induction fl generalizing fs with
  | nil => rfl
  | cons p rest ih =>
    rw [List.nodup_cons] at hnd
    unfold unlinkAll
    rw [if_pos (hsome p (by simp))]
    rw [List.foldl_cons]
    refine ih (fs.erase p) ?_ hnd.2
    intro q hq
    rw [FS.read_erase_ne _ (fun he => hnd.1 (show p ∈ rest by rw [← he]; exact hq))]
    exact hsome q (by simp [hq])

theorem dirs_foldl_erase (fl : List FsPath) (fs : FS) :
    (fl.foldl FS.erase fs).dirs = fs.dirs := by
  induction fl generalizing fs with
  | nil => rfl
  | cons p rest ih => rw [List.foldl_cons, ih, FS.dirs_erase]

theorem read_foldl_erase_of_not_mem (fl : List FsPath) (fs : FS) {q : FsPath}
    (h : q ∉ fl) : (fl.foldl FS.erase fs).read q = fs.read q := by
  induction fl generalizing fs with
  | nil => rfl
  | cons p rest ih =>
    rw [List.foldl_cons, ih _ (fun hq => h (by simp [hq])),
      FS.read_erase_ne _ (fun he => h (by simp [he]))]

/-! ### Further helper lemmas for the claims -/

theorem pathExistsB_of_mem_dirs {fs : FS} {p : FsPath} (h : p ∈ fs.dirs) :
    pathExistsB fs p = true := by
  unfold pathExistsB
  rw [contains_iff_memF.2 h]
  rfl

theorem onlyStrEntries_append_str {l : List PyPathOrStr} (h : onlyStrEntries l = true)
    (t : String) : onlyStrEntries (l ++ [.str t]) = true := by
  unfold onlyStrEntries at h ⊢
  rw [List.all_append, h]
  rfl

theorem add_persistent_sysPath (s : State) (name version : String)
    (mso : Option (List (String × Option String)))
    (hstr : onlyStrEntries s.sysPath = true) :
    (add_mock_package s name version mso true).2.sysPath =
      s.sysPath ++ [.str (pathToString sitePackages)] := by
  unfold add_mock_package
  simp only [any_pyEq_path_eq_false hstr, Bool.false_eq_true, if_false, if_true]
  split <;> split <;> rfl

instance : DecidableEq (Except PyError Unit) := fun a b =>
  match a, b with
  | .ok x, .ok y => isTrue (by cases x; cases y; rfl)
  | .error x, .error y =>
    if h : x = y then isTrue (by rw [h]) else isFalse (by simp [h])
  | .ok _, .error _ => isFalse (by simp)
  | .error _, .ok _ => isFalse (by simp)

set_option maxHeartbeats 1000000 in
theorem add_persistent_ok_inversion (s s1 : State) (name version : String)
    (mso : Option (List (String × Option String)))
    (h : add_mock_package s name version mso true = (.ok (), s1)) :
    metadataDirOf name version ∈ s1.fs.dirs := by
  unfold add_mock_package at h
  simp only [if_true] at h
  split at h <;> split at h
  · exact absurd (congrArg Prod.fst h) (by simp)
  · rw [Prod.mk.injEq] at h
    rw [← h.2]
    show metadataDirOf name version ∈ (FS.write _ _ _).dirs
    rw [FS.dirs_write, FS.dirs_write]
    refine dirs_foldl_addModuleFiles_of_mem _ _ _ ?_
    rw [FS.dirs_write]
    exact mem_dirs_mkdirParents_self _ (metadataDirOf_ne_nil name version)
  · exact absurd (congrArg Prod.fst h) (by simp)
  · rw [Prod.mk.injEq] at h
    rw [← h.2]
    show metadataDirOf name version ∈ (FS.write _ _ _).dirs
    rw [FS.dirs_write, FS.dirs_write]
    refine dirs_foldl_addModuleFiles_of_mem _ _ _ ?_
    rw [FS.dirs_write]
    exact mem_dirs_mkdirParents_self _ (metadataDirOf_ne_nil name version)

theorem dirs_foldl_addModuleFiles_inits (ms : List (String × Option String))
    (fs : FS) (fl : List FsPath) {m : String × Option String} (hm : m ∈ ms)
    {q : FsPath} (hq : q ∈ pathInits (sitePackages ++ splitDot m.1)) :
    q ∈ ((ms.foldl addModuleFiles (fs, fl)).1).dirs := by
  induction ms generalizing fs fl with
  | nil => cases hm
  | cons mh rest ih =>
    rcases List.mem_cons.1 hm with rfl | hmem
    · rw [foldl_addModuleFiles_cons]
      refine dirs_foldl_addModuleFiles_of_mem _ _ _ ?_
      rw [FS.dirs_write]
      exact mem_dirs_foldl_addDir_of_elem hq
    · rw [foldl_addModuleFiles_cons]
      exact ih _ _ hmem

/-- The filesystem at the moment `RECORD` is written: everything of the
persistent add except the `RECORD` file itself. -/
def addWorkFS (fs0 : FS) (name version : String)
    (ms : List (String × Option String)) : FS :=
  ((ms.foldl addModuleFiles
      ((mkdirParents fs0 (metadataDirOf name version)).write
        (metadataDirOf name version ++ ["METADATA"]) (metadataText name version ms),
       [metadataDirOf name version ++ ["METADATA"],
        metadataDirOf name version ++ ["INSTALLER"]])).1).write
    (metadataDirOf name version ++ ["INSTALLER"]) MOCK_INSTALL_NAME_PERSISTENT

theorem addWorkFS_read_metadata (fs0 : FS) (name version : String)
    (ms : List (String × Option String)) :
    (addWorkFS fs0 name version ms).read (metadataDirOf name version ++ ["METADATA"]) =
      some (metadataText name version ms) := by
  unfold addWorkFS
  rw [FS.read_write_ne _ _ (by exact append_singleton_ne (by decide))]
  rw [foldl_addModuleFiles_read_ne _ _ _ (fun m _ => metadataFile_ne_initPath name version m.1)]
  exact FS.read_write_self _ _ _

theorem addWorkFS_read_installer (fs0 : FS) (name version : String)
    (ms : List (String × Option String)) :
    (addWorkFS fs0 name version ms).read (metadataDirOf name version ++ ["INSTALLER"]) =
      some MOCK_INSTALL_NAME_PERSISTENT := FS.read_write_self _ _ _

theorem addWorkFS_read_init (fs0 : FS) (name version : String)
    {ms : List (String × Option String)} {m : String × Option String}
    (hm : m ∈ ms) (hnd : (ms.map Prod.fst).Nodup) :
    (addWorkFS fs0 name version ms).read (initPathOf m.1) =
      some (dedent (m.2.getD "")) := by
  unfold addWorkFS
  rw [FS.read_write_ne _ _ (fun he => installerFile_ne_initPath name version m.1 he.symm)]
  exact foldl_addModuleFiles_read_mem _ _ _ hm hnd

theorem addedFS_read_record_work (fs0 : FS) (name version : String)
    (ms : List (String × Option String)) :
    (addedFS fs0 name version ms).read (metadataDirOf name version ++ ["RECORD"]) =
      some (recordText (addWorkFS fs0 name version ms)
        ([metadataDirOf name version ++ ["METADATA"],
          metadataDirOf name version ++ ["INSTALLER"]]
            ++ ms.map (fun m => initPathOf m.1))
        (metadataDirOf name version ++ ["RECORD"])) :=
  addedFS_read_record fs0 name version ms

theorem stringJoin_cons (a : String) (l : List String) :
    String.join (a :: l) = a ++ String.join l := by
  apply String.ext
  simp [data_stringJoin, String.data_append]

theorem stringJoin_append (l1 l2 : List String) :
    String.join (l1 ++ l2) = String.join l1 ++ String.join l2 := by
  apply String.ext
  simp [data_stringJoin, String.data_append]

theorem stringJoin_nil : String.join [] = "" := rfl

theorem stSize_of_read {fs : FS} {p : FsPath} {c : String} (h : fs.read p = some c) :
    stSize fs p = c.utf8ByteSize := by
  unfold stSize
  rw [h]
  rfl

/-! ### The claims -/

/-- C6: `list_mock_packages` enumerates every distribution known to the
runtime-wide query facility and returns exactly the names of those whose
installer marker equals one of the two known tags; a distribution whose
marker is absent or different contributes nothing. -/
theorem C6_list_is_exactly_mock_names (s : State) :
    list_mock_packages s =
      ((distributions s).filter (fun d => isMockInstaller d.installerText)).map Dist.name ∧
    ∀ n, n ∈ list_mock_packages s ↔
      ∃ d ∈ distributions s, isMockInstaller d.installerText = true ∧ d.name = n :=
  ⟨list_mock_packages_filter s, fun _ => mem_list_mock_packages⟩

/-- C2: removing a distribution whose installer marker is absent or equals
neither of the two mock tags raises the descriptive `ValueError` and leaves
the whole state (filesystem included) untouched. -/
theorem C2_remove_non_mock_raises_and_preserves (s : State) (name : String) (d : Dist)
    (hfind : distributionFind s name = some d)
    (hmem : d.installerText ≠ some MOCK_INSTALL_NAME_MEMORY)
    (hpers : d.installerText ≠ some MOCK_INSTALL_NAME_PERSISTENT) :
    remove_mock_package s name = (.error (.valueError name), s) := by
  have h1 : (d.installerText == some MOCK_INSTALL_NAME_MEMORY) = false :=
    beq_eq_false_iff_ne.2 hmem
  have h2 : (d.installerText != some MOCK_INSTALL_NAME_PERSISTENT) = true :=
    bne_iff_ne.2 hpers
  unfold remove_mock_package
  rw [hfind]
  simp [h1, h2]

/-- Witness state for C2: one registered distribution whose installer
marker is the foreign tag `pip`. -/
def stateC2 : State :=
  { fs := { files := [], dirs := [sitePackages] },
    sysPath := [],
    memDists := [⟨"foo", [("INSTALLER", "pip")], []⟩] }

theorem C2_witness :
    remove_mock_package stateC2 "foo" = (.error (.valueError "foo"), stateC2) :=
  C2_remove_non_mock_raises_and_preserves stateC2 "foo"
    ⟨"foo", some "pip", none⟩ (by decide) (by decide) (by decide)

/-- C9: removing a distribution whose installer marker is the in-memory
tag delegates to the in-memory unregister and returns at once; the
filesystem and `sys.path` are untouched. -/
theorem C9_remove_memory_touches_no_file (s : State) (name : String) (d : Dist)
    (hfind : distributionFind s name = some d)
    (hmem : d.installerText = some MOCK_INSTALL_NAME_MEMORY) :
    remove_mock_package s name =
      (.ok (), { s with memDists := removeInMemoryDistribution s.memDists name }) ∧
    (remove_mock_package s name).2.fs = s.fs ∧
    (remove_mock_package s name).2.sysPath = s.sysPath := by
  have heq : remove_mock_package s name =
      (.ok (), { s with memDists := removeInMemoryDistribution s.memDists name }) := by
    unfold remove_mock_package
    rw [hfind]
    simp [hmem]
  exact ⟨heq, by rw [heq], by rw [heq]⟩

/-- Witness state for C9: one registered in-memory mock distribution. -/
def stateC9 : State :=
  { fs := { files := [(["data.txt"], "hello")], dirs := [sitePackages] },
    sysPath := [.str "/usr/lib"],
    memDists := [⟨"bar", [("METADATA", "Name: bar\n"),
      ("INSTALLER", MOCK_INSTALL_NAME_MEMORY)], [("bar", some "")]⟩] }

theorem C9_witness :
    remove_mock_package stateC9 "bar" = (.ok (), { stateC9 with memDists := [] }) ∧
    (remove_mock_package stateC9 "bar").2.fs = stateC9.fs ∧
    (remove_mock_package stateC9 "bar").2.sysPath = stateC9.sysPath :=
  C9_remove_memory_touches_no_file stateC9 "bar"
    ⟨"bar", some MOCK_INSTALL_NAME_MEMORY, none⟩ (by decide) (by decide)

/-- C3: a successful persistent add leaves the `name-version.dist-info`
directory behind, so a second persistent add with the same name and
version fails with the conflict error instead of overwriting. -/
theorem C3_second_persistent_add_conflicts (s s1 : State) (name version : String)
    (ms1 ms2 : Option (List (String × Option String)))
    (h1 : add_mock_package s name version ms1 true = (.ok (), s1)) :
    (add_mock_package s1 name version ms2 true).1 =
      .error (.fileExists (metadataDirOf name version)) := by
  have hmem := add_persistent_ok_inversion s s1 name version ms1 h1
  unfold add_mock_package
  simp only [if_true]
  have hex : ∀ fs0 : FS, s1.fs.dirs = fs0.dirs ∨
      (∃ p, fs0 = mkdirParents s1.fs p) → True := fun _ _ => trivial
  by_cases hsp : pathExistsB s1.fs sitePackages = true
  · rw [if_pos hsp, if_pos (pathExistsB_of_mem_dirs hmem)]
  · rw [if_neg hsp, if_pos (pathExistsB_of_mem_dirs
      (mem_dirs_mkdirParents_of_mem _ hmem))]

/-- Witness state for C3: an empty site-packages tree; the first add
succeeds and the second collides. -/
def stateC3 : State :=
  { fs := { files := [], dirs := [sitePackages] }, sysPath := [], memDists := [] }

set_option maxRecDepth 4000 in
theorem C3_witness :
    (add_mock_package (add_mock_package stateC3 "foo" "1.0" none true).2
      "foo" "1.0" none true).1 =
      .error (.fileExists (metadataDirOf "foo" "1.0")) :=
  C3_second_persistent_add_conflicts stateC3
    (add_mock_package stateC3 "foo" "1.0" none true).2 "foo" "1.0" none none
    (by decide)

/-- Iterated persistent adds, one per `(name, version)` pair. -/
def addAllPersistent (s : State) : List (String × String) → State
  | [] => s
  | (n, v) :: rest => addAllPersistent (add_mock_package s n v none true).2 rest

/-- C10: the membership guard compares a `Path` object against the string
entries of `sys.path` and never matches, so every persistent add (its
conflict check notwithstanding) appends another copy of the site-packages
string: n adds leave n more copies, even when the string is already
present. -/
theorem C10_sysPath_gains_one_copy_per_add (s : State) (pkgs : List (String × String))
    (hstr : onlyStrEntries s.sysPath = true) :
    ((addAllPersistent s pkgs).sysPath).count (.str (pathToString sitePackages)) =
      (s.sysPath).count (.str (pathToString sitePackages)) + pkgs.length := by
  induction pkgs generalizing s with
  | nil => rfl
  | cons pk rest ih =>
    show ((addAllPersistent (add_mock_package s pk.1 pk.2 none true).2 rest).sysPath).count _ = _
    rw [ih _ (by
      rw [add_persistent_sysPath s pk.1 pk.2 none hstr]
      exact onlyStrEntries_append_str hstr _)]
    rw [add_persistent_sysPath s pk.1 pk.2 none hstr, List.count_append]
    simp [List.count_singleton]
    omega

/-- Witness state for C10: `sys.path` already holds the site-packages
string, yet two further adds still append two more copies. -/
def stateC10 : State :=
  { fs := { files := [], dirs := [sitePackages] },
    sysPath := [.str (pathToString sitePackages)],
    memDists := [] }

theorem C10_witness :
    onlyStrEntries stateC10.sysPath = true ∧
    ((addAllPersistent stateC10 [("a", "1.0"), ("b", "2.0")]).sysPath).count
        (.str (pathToString sitePackages)) =
      (stateC10.sysPath).count (.str (pathToString sitePackages)) + 2 :=
  ⟨by decide, C10_sysPath_gains_one_copy_per_add stateC10 [("a", "1.0"), ("b", "2.0")]
    (by decide)⟩

/-- C5: with the `modules` argument omitted, `add_mock_package` produces
exactly one module named like the package with empty content: the
in-memory backend registers exactly the one-entry module table
`[(name, "")]`, and the persistent backend creates exactly one
`__init__.py` (under the directory named like the package) with empty
content — the `RECORD` lists exactly METADATA, INSTALLER, that single
init file, and itself. -/
theorem C5_default_single_empty_module (s : State) (name version : String)
    (hsp : pathExistsB s.fs sitePackages = true)
    (hmd : pathExistsB s.fs (metadataDirOf name version) = false)
    (hstr : onlyStrEntries s.sysPath = true)
    (hgood : goodComponent (name ++ "-" ++ version ++ ".dist-info"))
    (hmod : goodModuleName name) :
    (add_mock_package s name version none false).2.memDists =
      s.memDists.filter (fun m => m.name != name) ++
        [⟨name, [("METADATA", metadataText name version [(name, some "")]),
                 ("INSTALLER", MOCK_INSTALL_NAME_MEMORY)], [(name, some "")]⟩] ∧
    ((add_mock_package s name version none true).2).fs.read (initPathOf name) = some "" ∧
    (((add_mock_package s name version none true).2).fs.read
        (metadataDirOf name version ++ ["RECORD"])).map parseRecord =
      some [metadataDirOf name version ++ ["METADATA"],
        metadataDirOf name version ++ ["INSTALLER"], initPathOf name,
        metadataDirOf name version ++ ["RECORD"]] := by
  refine ⟨?_, ?_, ?_⟩
  · rw [add_memory_eq s name version none]
    rfl
  · rw [add_persistent_ok s name version none hsp hmd hstr]
    have h := @addedFS_read_init s.fs name version [(name, some "")] (name, some "")
      (by simp) (by simp)
    rw [show (none : Option (List (String × Option String))).getD [(name, some "")]
        = [(name, some "")] from rfl]
    exact h.trans (by simp [dedent_empty])
  · rw [add_persistent_ok s name version none hsp hmd hstr]
    rw [show (none : Option (List (String × Option String))).getD [(name, some "")]
        = [(name, some "")] from rfl]
    rw [addedFS_read_record_work s.fs name version [(name, some "")]]
    rw [Option.map_some']
    refine congrArg some ?_
    have hfl : ∀ p ∈ ([metadataDirOf name version ++ ["METADATA"],
        metadataDirOf name version ++ ["INSTALLER"]]
          ++ ([(name, some "")] : List (String × Option String)).map
            (fun m => initPathOf m.1)), goodPath p := by
      intro p hp
      simp only [List.map_cons, List.map_nil, List.mem_append, List.mem_cons,
        List.mem_singleton, List.not_mem_nil, or_false] at hp
      rcases hp with (rfl | rfl) | rfl
      · exact goodPath_distInfoFile hgood (by decide)
      · exact goodPath_distInfoFile hgood (by decide)
      · exact goodPath_initPath hmod
    rw [parseRecord_recordText _ hfl (goodPath_distInfoFile hgood (by decide))]
    simp

/-- Witness state for C5. -/
def stateC5 : State :=
  { fs := { files := [], dirs := [sitePackages] }, sysPath := [], memDists := [] }

set_option maxRecDepth 4000 in
theorem C5_witness :
    (pathExistsB stateC5.fs sitePackages = true ∧
      pathExistsB stateC5.fs (metadataDirOf "p" "1.0") = false ∧
      goodComponent ("p" ++ "-" ++ "1.0" ++ ".dist-info") ∧ goodModuleName "p") ∧
    ((add_mock_package stateC5 "p" "1.0" none true).2).fs.read (initPathOf "p") = some "" :=
  ⟨⟨by decide, by decide, by decide, by decide⟩,
    (C5_default_single_empty_module stateC5 "p" "1.0" (by decide) (by decide)
      (by decide) (by decide) (by decide)).2.1⟩

/-- C7: each declared module of a persistent add gets its dotted name
split into nested directories below site-packages (every prefix directory
exists afterwards), and the single `__init__.py` in the leaf directory
holds the supplied source text dedented — empty when the source is absent
or empty. -/
theorem C7_module_trees_and_init_contents (s : State) (name version : String)
    (ms : List (String × Option String))
    (hsp : pathExistsB s.fs sitePackages = true)
    (hmd : pathExistsB s.fs (metadataDirOf name version) = false)
    (hstr : onlyStrEntries s.sysPath = true)
    (hnd : (ms.map Prod.fst).Nodup) :
    ∀ m ∈ ms,
      (∀ q ∈ pathInits (sitePackages ++ splitDot m.1),
        q ∈ ((add_mock_package s name version (some ms) true).2).fs.dirs) ∧
      ((add_mock_package s name version (some ms) true).2).fs.read
          (sitePackages ++ splitDot m.1 ++ ["__init__.py"]) =
        some (dedent (m.2.getD "")) ∧
      (m.2 = none ∨ m.2 = some "" →
        ((add_mock_package s name version (some ms) true).2).fs.read
            (sitePackages ++ splitDot m.1 ++ ["__init__.py"]) = some "") := by
  intro m hm
  rw [add_persistent_ok s name version (some ms) hsp hmd hstr]
  rw [show (some ms).getD [(name, some "")] = ms from rfl]
  refine ⟨?_, ?_, ?_⟩
  · intro q hq
    unfold addedFS
    simp only [FS.dirs_write]
    exact dirs_foldl_addModuleFiles_inits _ _ _ hm hq
  · exact addedFS_read_init s.fs name version hm hnd
  · intro he
    have h := addedFS_read_init s.fs name version hm hnd
    rw [dedent_getD_empty m.2 he] at h
    exact h

/-- Witness state for C7. -/
def stateC7 : State :=
  { fs := { files := [], dirs := [sitePackages] }, sysPath := [], memDists := [] }

set_option maxRecDepth 8000 in
theorem C7_witness :
    ((([("m", some "X = 42"), ("pkg.sub", none)] :
        List (String × Option String)).map Prod.fst).Nodup) ∧
    (∀ m ∈ ([("m", some "X = 42"), ("pkg.sub", none)] : List (String × Option String)),
      (∀ q ∈ pathInits (sitePackages ++ splitDot m.1),
        q ∈ ((add_mock_package stateC7 "w" "1.0"
          (some [("m", some "X = 42"), ("pkg.sub", none)]) true).2).fs.dirs) ∧
      ((add_mock_package stateC7 "w" "1.0"
          (some [("m", some "X = 42"), ("pkg.sub", none)]) true).2).fs.read
          (sitePackages ++ splitDot m.1 ++ ["__init__.py"]) =
        some (dedent (m.2.getD "")) ∧
      (m.2 = none ∨ m.2 = some "" →
        ((add_mock_package stateC7 "w" "1.0"
            (some [("m", some "X = 42"), ("pkg.sub", none)]) true).2).fs.read
            (sitePackages ++ splitDot m.1 ++ ["__init__.py"]) = some "")) :=
  ⟨by decide, C7_module_trees_and_init_contents stateC7 "w" "1.0"
    [("m", some "X = 42"), ("pkg.sub", none)]
    (by decide) (by decide) (by decide) (by decide)⟩

/-- Modelled from the spec: the expected `RECORD` text — one
`<path>,,<size_in_bytes>` line per owned file (the METADATA file, the
INSTALLER file, then each module's init file in order), with the checksum
field blank, followed by a self-referencing trailing line with checksum
and size both blank. -/
def expectedRecord (name version : String) (ms : List (String × Option String)) : String :=
  (pathToString (metadataDirOf name version ++ ["METADATA"]) ++ ",,"
      ++ String.mk (natChars ((metadataText name version ms).utf8ByteSize)) ++ "\n")
    ++ (pathToString (metadataDirOf name version ++ ["INSTALLER"]) ++ ",,"
      ++ String.mk (natChars (MOCK_INSTALL_NAME_PERSISTENT.utf8ByteSize)) ++ "\n")
    ++ String.join (ms.map (fun m => pathToString (initPathOf m.1) ++ ",,"
      ++ String.mk (natChars ((dedent (m.2.getD "")).utf8ByteSize)) ++ "\n"))
    ++ (pathToString (metadataDirOf name version ++ ["RECORD"]) ++ ",,\n")

/-- C8: after a successful persistent add the `RECORD` file holds one
`<path>,,<size>` line per owned file — METADATA (size of the metadata
text), INSTALLER (size of the persistent tag), and each module's init file
(size of its dedented source) — all with blank checksum, and a trailing
self-referencing line with blank checksum and blank size. -/
theorem C8_record_lines (s : State) (name version : String)
    (ms : List (String × Option String))
    (hsp : pathExistsB s.fs sitePackages = true)
    (hmd : pathExistsB s.fs (metadataDirOf name version) = false)
    (hstr : onlyStrEntries s.sysPath = true)
    (hnd : (ms.map Prod.fst).Nodup) :
    ((add_mock_package s name version (some ms) true).2).fs.read
        (metadataDirOf name version ++ ["RECORD"]) =
      some (expectedRecord name version ms) := by
  rw [add_persistent_ok s name version (some ms) hsp hmd hstr]
  rw [show (some ms).getD [(name, some "")] = ms from rfl]
  rw [addedFS_read_record_work s.fs name version ms]
  congr 1
  have hmods : (ms.map (fun m => initPathOf m.1)).map
        (recordLineOf (addWorkFS s.fs name version ms))
      = ms.map (fun m => pathToString (initPathOf m.1) ++ ",,"
        ++ String.mk (natChars ((dedent (m.2.getD "")).utf8ByteSize)) ++ "\n") := by
    rw [List.map_map]
    refine List.map_congr_left ?_
    intro m hm
    show recordLineOf _ (initPathOf m.1) = _
    unfold recordLineOf
    rw [stSize_of_read (addWorkFS_read_init s.fs name version hm hnd)]
  unfold recordText expectedRecord
  rw [List.map_append, stringJoin_append, List.map_cons, List.map_cons, List.map_nil,
    stringJoin_cons, stringJoin_cons, stringJoin_nil, hmods]
  unfold recordLineOf
  rw [stSize_of_read (addWorkFS_read_metadata s.fs name version ms),
    stSize_of_read (addWorkFS_read_installer s.fs name version ms)]
  simp [String.append_assoc]

/-- Witness state for C8. -/
def stateC8 : State :=
  { fs := { files := [], dirs := [sitePackages] }, sysPath := [], memDists := [] }

set_option maxRecDepth 8000 in
theorem C8_witness :
    ((([("m", some "X = 42")] : List (String × Option String)).map Prod.fst).Nodup) ∧
    ((add_mock_package stateC8 "w" "1.0" (some [("m", some "X = 42")]) true).2).fs.read
        (metadataDirOf "w" "1.0" ++ ["RECORD"]) =
      some (expectedRecord "w" "1.0" [("m", some "X = 42")]) :=
  ⟨by decide, C8_record_lines stateC8 "w" "1.0" [("m", some "X = 42")]
    (by decide) (by decide) (by decide) (by decide)⟩

/-! ### Safety of the folder-deletion loop -/

theorem unlinkAll_dirs (fl : List FsPath) (fs : FS) :
    (unlinkAll fs fl).2.dirs = fs.dirs := by
  induction fl generalizing fs with
  | nil => rfl
  | cons p rest ih =>
    unfold unlinkAll
    by_cases h : (fs.read p).isSome = true
    · rw [if_pos h, ih]
      rfl
    · rw [if_neg h]

theorem rmtreeLoop_dirs_subset (l : List FsPath) (sp : FsPath) (fs : FS) :
    ∀ q ∈ (rmtreeLoop sp fs l).2.dirs, q ∈ fs.dirs := by
  induction l generalizing fs with
  | nil => exact fun q hq => hq
  | cons g rest ih =>
    intro q hq
    unfold rmtreeLoop at hq
    by_cases hg : (g == sp) = true
    · rw [if_pos hg] at hq
      exact ih fs q hq
    · rw [if_neg hg] at hq
      by_cases hc : fs.dirs.contains g = true
      · rw [if_pos hc] at hq
        exact (mem_dirs_rmtreeFS.1 (ih _ q hq)).1
      · rw [if_neg hc] at hq
        exact hq

theorem rmtreeLoop_ok_deletes (l : List FsPath) (sp : FsPath) (fs fs2 : FS)
    (hok : rmtreeLoop sp fs l = (.ok (), fs2)) :
    ∀ f ∈ l, f ≠ sp → ∀ q ∈ fs2.dirs, ¬ f <+: q := by
  induction l generalizing fs with
  | nil => exact fun f hf => absurd hf (List.not_mem_nil f)
  | cons g rest ih =>
    intro f hf hfsp q hq hpre
    unfold rmtreeLoop at hok
    by_cases hg : (g == sp) = true
    · rw [if_pos hg] at hok
      rcases List.mem_cons.1 hf with rfl | hf2
      · exact hfsp (by simpa using hg)
      · exact ih _ hok f hf2 hfsp q hq hpre
    · rw [if_neg hg] at hok
      by_cases hc : fs.dirs.contains g = true
      · rw [if_pos hc] at hok
        rcases List.mem_cons.1 hf with rfl | hf2
        · have hq2 : q ∈ (rmtreeFS fs f).dirs := by
            have := rmtreeLoop_dirs_subset rest sp (rmtreeFS fs f)
            rw [hok] at this
            exact this q hq
          exact (mem_dirs_rmtreeFS.1 hq2).2 hpre
        · exact ih _ hok f hf2 hfsp q hq hpre
      · rw [if_neg hc] at hok
        exact absurd (congrArg Prod.fst hok) (by simp)

theorem rmtreeLoop_preserves_sp (l : List FsPath) (sp : FsPath) (fs : FS)
    (hl : ∀ f ∈ l, f = sp ∨ ¬ f <+: sp) (hsp : sp ∈ fs.dirs) :
    sp ∈ (rmtreeLoop sp fs l).2.dirs := by
  induction l generalizing fs with
  | nil => exact hsp
  | cons g rest ih =>
    unfold rmtreeLoop
    by_cases hg : (g == sp) = true
    · rw [if_pos hg]
      exact ih fs (fun f hf => hl f (by simp [hf])) hsp
    · rw [if_neg hg]
      by_cases hc : fs.dirs.contains g = true
      · rw [if_pos hc]
        refine ih _ (fun f hf => hl f (by simp [hf])) ?_
        refine mem_dirs_rmtreeFS.2 ⟨hsp, ?_⟩
        rcases hl g (by simp) with he | hnp
        · exact absurd (by simp [he]) (show ¬ (g == sp) = true from hg)
        · exact hnp
      · rw [if_neg hc]
        exact hsp

theorem mem_collectFolders_aux (fl : List FsPath) (acc : List FsPath) :
    ∀ f ∈ fl.foldl
      (fun acc p => if acc.contains p.dropLast then acc else acc ++ [p.dropLast]) acc,
      f ∈ acc ∨ ∃ p ∈ fl, f = p.dropLast := by
  induction fl generalizing acc with
  | nil => exact fun f hf => Or.inl hf
  | cons p rest ih =>
    intro f hf
    rw [List.foldl_cons] at hf
    by_cases hc : acc.contains p.dropLast = true
    · rw [if_pos hc] at hf
      rcases ih acc f hf with h | ⟨q, hq, he⟩
      · exact Or.inl h
      · exact Or.inr ⟨q, by simp [hq], he⟩
    · rw [if_neg hc] at hf
      rcases ih (acc ++ [p.dropLast]) f hf with h | ⟨q, hq, he⟩
      · rcases List.mem_append.1 h with h | h
        · exact Or.inl h
        · exact Or.inr ⟨p, by simp, by simpa using h⟩
      · exact Or.inr ⟨q, by simp [hq], he⟩

theorem mem_collectFolders {fl : List FsPath} {f : FsPath} (h : f ∈ collectFolders fl) :
    ∃ p ∈ fl, f = p.dropLast := by
  rcases mem_collectFolders_aux fl [] f h with h2 | h2
  · cases h2
  · exact h2

theorem dropLast_append_of_ne_nil (sp r : FsPath) (h : r ≠ []) :
    (sp ++ r).dropLast = sp ++ r.dropLast := by
  have hr : r = r.dropLast ++ [r.getLast h] := (List.dropLast_append_getLast h).symm
  calc (sp ++ r).dropLast = ((sp ++ r.dropLast) ++ [r.getLast h]).dropLast := by
        rw [List.append_assoc, ← hr]
  _ = sp ++ r.dropLast := by
        rw [List.dropLast_concat]

theorem remove_persistent_inversion (s s2 : State) (name : String) (d : Dist)
    (fl : List FsPath)
    (hfind : distributionFind s name = some d)
    (hpers : d.installerText = some MOCK_INSTALL_NAME_PERSISTENT)
    (hdf : d.files = some fl)
    (hok : remove_mock_package s name = (.ok (), s2)) :
    ∃ fsU fs2, unlinkAll s.fs fl = (.ok (), fsU) ∧
      rmtreeLoop sitePackages fsU (collectFolders fl) = (.ok (), fs2) ∧
      s2 = { s with fs := fs2 } := by
  unfold remove_mock_package at hok
  rw [hfind] at hok
  dsimp only at hok
  rw [hpers, hdf] at hok
  rw [if_neg (by decide), if_neg (by decide)] at hok
  dsimp only at hok
  cases hu : unlinkAll s.fs fl with
  | mk r fsU =>
    rw [hu] at hok
    cases r with
    | error e =>
      dsimp only at hok
      exact absurd (congrArg Prod.fst hok) (by simp)
    | ok u =>
      cases u
      dsimp only at hok
      cases hr : rmtreeLoop sitePackages fsU (collectFolders fl) with
      | mk r2 fs2 =>
        rw [hr] at hok
        cases r2 with
        | error e =>
          dsimp only at hok
          exact absurd (congrArg Prod.fst hok) (by simp)
        | ok u2 =>
          cases u2
          dsimp only at hok
          refine ⟨fsU, fs2, ?_, ?_, ?_⟩
          · rfl
          · exact hr
          · exact (congrArg Prod.snd hok).symm

/-- C4: removing a persistent mock never deletes the site-packages root:
every collected parent directory of the removed files other than the root
is recursively deleted (nothing below it survives), while the root itself
survives whenever it existed before, no matter how empty it has become. -/
theorem C4_remove_spares_site_packages (s s2 : State) (name : String) (d : Dist)
    (fl : List FsPath)
    (hfind : distributionFind s name = some d)
    (hpers : d.installerText = some MOCK_INSTALL_NAME_PERSISTENT)
    (hdf : d.files = some fl)
    (hfiles : ∀ p ∈ fl, ∃ r, r ≠ [] ∧ p = sitePackages ++ r)
    (hok : remove_mock_package s name = (.ok (), s2)) :
    (sitePackages ∈ s.fs.dirs → sitePackages ∈ s2.fs.dirs) ∧
    (∀ f ∈ collectFolders fl, f ≠ sitePackages → ∀ q ∈ s2.fs.dirs, ¬ f <+: q) := by
  obtain ⟨fsU, fs2, hu, hr, hs2⟩ :=
    remove_persistent_inversion s s2 name d fl hfind hpers hdf hok
  have hfolders : ∀ f ∈ collectFolders fl, f = sitePackages ∨ ¬ f <+: sitePackages := by
    intro f hf
    obtain ⟨p, hp, rfl⟩ := mem_collectFolders hf
    obtain ⟨r, hrne, rfl⟩ := hfiles p hp
    rw [dropLast_append_of_ne_nil _ _ hrne]
    cases hrd : r.dropLast with
    | nil => exact Or.inl (by simp)
    | cons x xs =>
      refine Or.inr ?_
      intro hpre
      have := hpre.length_le
      simp [hrd] at this
  constructor
  · intro hsp
    rw [hs2]
    show sitePackages ∈ fs2.dirs
    have hspU : sitePackages ∈ fsU.dirs := by
      have := unlinkAll_dirs fl s.fs
      rw [hu] at this
      exact this ▸ hsp
    have := rmtreeLoop_preserves_sp (collectFolders fl) sitePackages fsU hfolders hspU
    rw [hr] at this
    exact this
  · intro f hf hfsp q hq
    rw [hs2] at hq
    exact rmtreeLoop_ok_deletes (collectFolders fl) sitePackages fsU fs2 hr f hf hfsp q hq

/-- Witness state for C4: the result of one successful persistent add on a
fresh site-packages tree. -/
def stateC4 : State :=
  (add_mock_package ⟨⟨[], [sitePackages]⟩, [], []⟩ "foo" "1.0" none true).2

/-- The owned files of the witness distribution of C4, as listed in its
`RECORD`. -/
def filesC4 : List FsPath :=
  [metadataDirOf "foo" "1.0" ++ ["METADATA"],
   metadataDirOf "foo" "1.0" ++ ["INSTALLER"],
   initPathOf "foo",
   metadataDirOf "foo" "1.0" ++ ["RECORD"]]

set_option maxRecDepth 8000 in
theorem C4_witness :
    (∀ p ∈ filesC4, ∃ r, r ≠ [] ∧ p = sitePackages ++ r) ∧
    (sitePackages ∈ stateC4.fs.dirs →
      sitePackages ∈ (remove_mock_package stateC4 "foo").2.fs.dirs) ∧
    (∀ f ∈ collectFolders filesC4, f ≠ sitePackages →
      ∀ q ∈ (remove_mock_package stateC4 "foo").2.fs.dirs, ¬ f <+: q) := by
  have hfiles : ∀ p ∈ filesC4, ∃ r, r ≠ [] ∧ p = sitePackages ++ r := by
    intro p hp
    unfold filesC4 at hp
    simp only [List.mem_cons, List.not_mem_nil, or_false] at hp
    rcases hp with rfl | rfl | rfl | rfl
    · exact ⟨["foo-1.0.dist-info", "METADATA"], by decide, by decide⟩
    · exact ⟨["foo-1.0.dist-info", "INSTALLER"], by decide, by decide⟩
    · exact ⟨["foo", "__init__.py"], by decide, by decide⟩
    · exact ⟨["foo-1.0.dist-info", "RECORD"], by decide, by decide⟩
  refine ⟨hfiles, ?_⟩
  exact C4_remove_spares_site_packages stateC4 (remove_mock_package stateC4 "foo").2
    "foo" ⟨"foo", some MOCK_INSTALL_NAME_PERSISTENT, some filesC4⟩ filesC4
    (by decide) (by decide) (by decide) hfiles (by decide)

/-! ### The round trip (C1): helper lemmas -/

theorem splitDot_of_no_dot {n : String} (h : '.' ∉ n.data) : splitDot n = [n] := by
  unfold splitDot
  rw [splitChar_of_not_mem h]
  rfl

theorem goodComponent_distinfo {n v : String} (hn : goodComponent n) (hv : goodComponent v) :
    goodComponent (n ++ "-" ++ v ++ ".dist-info") := by
  constructor
  · simp [String.data_append]
  · intro c hc
    simp only [String.data_append, List.mem_append] at hc
    rcases hc with ((hc | hc) | hc) | hc
    · exact hn.2 c hc
    · rw [List.mem_singleton] at hc
      subst hc
      decide
    · exact hv.2 c hc
    · simp only [List.mem_cons, List.not_mem_nil, or_false] at hc
      rcases hc with rfl | rfl | rfl | rfl | rfl | rfl | rfl | rfl | rfl | rfl <;> decide

theorem distInfoDir_structure {d : FsPath}
    (h : isDistInfoDirOf sitePackages d = true) :
    ∃ c, d = sitePackages ++ [c] ∧ '.' ∈ c.data := by
  unfold isDistInfoDirOf at h
  rw [Bool.and_eq_true] at h
  have hdl : d.dropLast = sitePackages := by simpa using h.1
  have hdne : d ≠ [] := by
    intro he
    rw [he] at hdl
    exact (by decide : sitePackages ≠ []) hdl.symm
  refine ⟨d.getLast hdne, ?_, ?_⟩
  · rw [← hdl]
    exact (List.dropLast_append_getLast hdne).symm
  · have hsuf : ".dist-info".data <:+ (d.getLastD "").data :=
      List.isSuffixOf_iff_suffix.1 h.2
    have hgl : d.getLastD "" = d.getLast hdne := by
      rw [List.getLastD_eq_getLast?, List.getLast?_eq_getLast d hdne]
      rfl
    rw [hgl] at hsuf
    exact hsuf.subset (by decide)

theorem distinfo_component_ne {c n : String} (hdot : '.' ∈ c.data)
    (hn : '.' ∉ n.data) : c ≠ n := by
  intro he
  exact hn (he ▸ hdot)

/-- The distribution created by a persistent add with the default module
list, as the query facility sees it. -/
theorem newDist_fields (fs0 : FS) (name version : String)
    (hn : goodComponent name) (hdot : '.' ∉ name.data) (hv : goodComponent version) :
    (distOfDir (addedFS fs0 name version [(name, some "")])
        (metadataDirOf name version)).name = name ∧
    (distOfDir (addedFS fs0 name version [(name, some "")])
        (metadataDirOf name version)).installerText = some MOCK_INSTALL_NAME_PERSISTENT ∧
    (distOfDir (addedFS fs0 name version [(name, some "")])
        (metadataDirOf name version)).files =
      some [metadataDirOf name version ++ ["METADATA"],
        metadataDirOf name version ++ ["INSTALLER"], initPathOf name,
        metadataDirOf name version ++ ["RECORD"]] := by
  have hnl : '\n' ∉ name.data := fun hm => ((hn.2 '\n' hm).2.2) rfl
  refine ⟨?_, ?_, ?_⟩
  · show parseName _ = name
    rw [addedFS_read_metadata]
    show parseName (metadataText name version [(name, some "")]) = name
    exact parseName_metadataText version [(name, some "")] hnl
  · show (addedFS fs0 name version [(name, some "")]).read _ = _
    exact addedFS_read_installer fs0 name version [(name, some "")]
  · show ((addedFS fs0 name version [(name, some "")]).read _).map parseRecord = _
    rw [addedFS_read_record_work fs0 name version [(name, some "")], Option.map_some']
    refine congrArg some ?_
    have hgood := goodComponent_distinfo hn hv
    have hfl : ∀ p ∈ ([metadataDirOf name version ++ ["METADATA"],
        metadataDirOf name version ++ ["INSTALLER"]]
          ++ ([(name, some "")] : List (String × Option String)).map
            (fun m => initPathOf m.1)), goodPath p := by
      intro p hp
      simp only [List.map_cons, List.map_nil, List.mem_append, List.mem_cons,
        List.mem_singleton, List.not_mem_nil, or_false] at hp
      rcases hp with (rfl | rfl) | rfl
      · exact goodPath_distInfoFile hgood (by decide)
      · exact goodPath_distInfoFile hgood (by decide)
      · refine goodPath_initPath ?_
        intro x hx
        rw [splitDot_of_no_dot hdot, List.mem_singleton] at hx
        exact hx ▸ hn
    rw [parseRecord_recordText _ hfl (goodPath_distInfoFile hgood (by decide))]
    simp

/-- After the persistent add, looking the name up finds exactly the new
distribution. -/
theorem find_after_persistent_add (s : State) (name version : String)
    (hmd : pathExistsB s.fs (metadataDirOf name version) = false)
    (hnodup : s.fs.dirs.Nodup)
    (hn : goodComponent name) (hdot : '.' ∉ name.data) (hv : goodComponent version)
    (hfresh : name ∉ (distributions s).map Dist.name) :
    distributionFind
        (State.mk (addedFS s.fs name version [(name, some "")])
          (s.sysPath ++ [.str (pathToString sitePackages)]) s.memDists) name =
      some (distOfDir (addedFS s.fs name version [(name, some "")])
        (metadataDirOf name version)) := by
  unfold distributionFind distributions
  show ((persistentDists (addedFS s.fs name version [(name, some "")])
      ++ s.memDists.map memDistView).find? _) = _
  rw [persistentDists_addedFS_full s.fs name version [(name, some "")] hmd hnodup]
  rw [List.append_assoc]
  rw [find?_append_of_none ?hold]
  case hold =>
    intro d hd
    have hdn : d.name ∈ (distributions s).map Dist.name := by
      refine List.mem_map_of_mem Dist.name ?_
      unfold distributions
      exact List.mem_append.2 (Or.inl hd)
    have : d.name ≠ name := fun he => hfresh (he ▸ hdn)
    simp [this]
  rw [List.singleton_append, List.find?_cons_of_pos]
  exact beq_iff_eq.2 (newDist_fields s.fs name version hn hdot hv).1

/-- The files of the default-module persistent distribution, in `RECORD`
order. -/
def c1FL (name version : String) : List FsPath :=
  [metadataDirOf name version ++ ["METADATA"],
   metadataDirOf name version ++ ["INSTALLER"],
   initPathOf name,
   metadataDirOf name version ++ ["RECORD"]]

/-- The filesystem left after removing the default-module persistent
distribution again. -/
def c1FS2 (fs0 : FS) (name version : String) : FS :=
  rmtreeFS (rmtreeFS ((c1FL name version).foldl FS.erase
      (addedFS fs0 name version [(name, some "")]))
    (metadataDirOf name version)) (sitePackages ++ [name])

theorem append_singleton_ne_self (p : FsPath) (a : String) : p ++ [a] ≠ p := by
  intro he
  have := congrArg List.length he
  simp at this

theorem dot_mem_distinfo_component (n v : String) :
    '.' ∈ (n ++ "-" ++ v ++ ".dist-info").data := by
  simp only [String.data_append, List.mem_append]
  refine Or.inr ?_
  decide

theorem metadataDir_ne_moduleDir {n : String} (v : String) (hdot : '.' ∉ n.data) :
    metadataDirOf n v ≠ sitePackages ++ [n] := by
  unfold metadataDirOf
  intro he
  have h2 : ([n ++ "-" ++ v ++ ".dist-info"] : List String) = [n] :=
    List.append_cancel_left he
  have hdc : (n ++ "-" ++ v ++ ".dist-info") = n := by simpa using h2
  exact hdot (hdc ▸ dot_mem_distinfo_component n v)

theorem initPathOf_no_dot {n : String} (hdot : '.' ∉ n.data) :
    initPathOf n = (sitePackages ++ [n]) ++ ["__init__.py"] := by
  unfold initPathOf
  rw [splitDot_of_no_dot hdot]

theorem collectFolders_c1FL (n v : String) (hdot : '.' ∉ n.data) :
    collectFolders (c1FL n v) = [metadataDirOf n v, sitePackages ++ [n]] := by
  have h1 : (metadataDirOf n v ++ ["METADATA"]).dropLast = metadataDirOf n v :=
    List.dropLast_concat
  have h2 : (metadataDirOf n v ++ ["INSTALLER"]).dropLast = metadataDirOf n v :=
    List.dropLast_concat
  have h3 : (initPathOf n).dropLast = sitePackages ++ [n] := by
    rw [initPathOf_no_dot hdot]
    exact List.dropLast_concat
  have h4 : (metadataDirOf n v ++ ["RECORD"]).dropLast = metadataDirOf n v :=
    List.dropLast_concat
  have hne : metadataDirOf n v ≠ sitePackages ++ [n] := metadataDir_ne_moduleDir v hdot
  unfold collectFolders c1FL
  simp only [List.foldl_cons, List.foldl_nil, h1, h2, h3, h4]
  have hc1 : (([] : List FsPath).contains (metadataDirOf n v)) = false := rfl
  rw [hc1]
  simp only [Bool.false_eq_true, if_false, List.nil_append]
  have hc2 : (([metadataDirOf n v] : List FsPath).contains (metadataDirOf n v)) = true := by
    simp
  rw [hc2]
  simp only [if_true]
  have hc3 : (([metadataDirOf n v] : List FsPath).contains (sitePackages ++ [n])) = false := by
    rw [← Bool.not_eq_true]
    intro hc
    have hm := contains_iff_memF.1 hc
    rw [List.mem_singleton] at hm
    exact hne hm.symm
  rw [hc3]
  simp only [Bool.false_eq_true, if_false]
  have hc4 : ((([metadataDirOf n v] : List FsPath) ++ [sitePackages ++ [n]]).contains
      (metadataDirOf n v)) = true := by simp
  rw [hc4]
  simp

theorem mdir_not_prefix_moduleDir {n v : String} (hdot : '.' ∉ n.data)
    (hpre : metadataDirOf n v <+: sitePackages ++ [n]) : False := by
  have hlen : (metadataDirOf n v).length = (sitePackages ++ [n]).length := by
    unfold metadataDirOf
    simp
  exact metadataDir_ne_moduleDir v hdot (hpre.eq_of_length hlen)

theorem rmtreeLoop_c1 (fsU : FS) (n v : String) (hdot : '.' ∉ n.data)
    (hm1 : metadataDirOf n v ∈ fsU.dirs) (hm2 : sitePackages ++ [n] ∈ fsU.dirs) :
    rmtreeLoop sitePackages fsU [metadataDirOf n v, sitePackages ++ [n]] =
      (.ok (), rmtreeFS (rmtreeFS fsU (metadataDirOf n v)) (sitePackages ++ [n])) := by
  have hne1 : ((metadataDirOf n v == sitePackages) = true) → False := by
    intro hb
    exact append_singleton_ne_self sitePackages _ (beq_iff_eq.1 hb)
  have hne2 : ((sitePackages ++ [n] == sitePackages) = true) → False := by
    intro hb
    exact append_singleton_ne_self sitePackages n (beq_iff_eq.1 hb)
  unfold rmtreeLoop
  rw [if_neg hne1, if_pos (contains_iff_memF.2 hm1)]
  unfold rmtreeLoop
  rw [if_neg hne2, if_pos (contains_iff_memF.2
    (mem_dirs_rmtreeFS.2 ⟨hm2, fun hpre => mdir_not_prefix_moduleDir hdot hpre⟩))]
  rfl

theorem c1FL_nodup (n v : String) : (c1FL n v).Nodup := by
  unfold c1FL
  refine List.nodup_cons.2 ⟨?_, List.nodup_cons.2 ⟨?_, List.nodup_cons.2
    ⟨?_, List.nodup_singleton _⟩⟩⟩
  · simp only [List.mem_cons, List.mem_singleton, List.not_mem_nil, or_false, not_or]
    exact ⟨append_singleton_ne (by decide), metadataFile_ne_initPath n v n,
      append_singleton_ne (by decide)⟩
  · simp only [List.mem_cons, List.mem_singleton, List.not_mem_nil, or_false, not_or]
    exact ⟨installerFile_ne_initPath n v n, append_singleton_ne (by decide)⟩
  · simp only [List.mem_singleton, List.mem_cons, List.not_mem_nil, or_false]
    exact fun he => recordFile_ne_initPath n v n he.symm

theorem c1FL_reads (fs0 : FS) (n v : String) :
    ∀ p ∈ c1FL n v, ((addedFS fs0 n v [(n, some "")]).read p).isSome = true := by
  intro p hp
  unfold c1FL at hp
  simp only [List.mem_cons, List.not_mem_nil, or_false] at hp
  rcases hp with rfl | rfl | rfl | rfl
  · rw [addedFS_read_metadata]
    rfl
  · rw [addedFS_read_installer]
    rfl
  · have h := addedFS_read_init fs0 n v
      (show ((n, some "") : String × Option String) ∈ [(n, some "")] by simp) (by simp)
    exact (congrArg Option.isSome h).trans rfl
  · rw [addedFS_read_record_work]
    rfl

theorem remove_after_persistent_add (s : State) (name version : String)
    (hsp : pathExistsB s.fs sitePackages = true)
    (hmd : pathExistsB s.fs (metadataDirOf name version) = false)
    (hstr : onlyStrEntries s.sysPath = true)
    (hnodup : s.fs.dirs.Nodup)
    (hn : goodComponent name) (hdot : '.' ∉ name.data) (hv : goodComponent version)
    (hfresh : name ∉ (distributions s).map Dist.name) :
    remove_mock_package (add_mock_package s name version none true).2 name =
      (.ok (), State.mk (c1FS2 s.fs name version)
        (s.sysPath ++ [.str (pathToString sitePackages)]) s.memDists) := by
  rw [add_persistent_ok s name version none hsp hmd hstr]
  show remove_mock_package (State.mk (addedFS s.fs name version [(name, some "")])
    (s.sysPath ++ [.str (pathToString sitePackages)]) s.memDists) name = _
  obtain ⟨hname, hinst, hfiles⟩ := newDist_fields s.fs name version hn hdot hv
  unfold remove_mock_package
  rw [find_after_persistent_add s name version hmd hnodup hn hdot hv hfresh]
  dsimp only
  rw [hinst, hfiles]
  rw [if_neg (by decide), if_neg (by decide)]
  dsimp only
  rw [show ([metadataDirOf name version ++ ["METADATA"],
      metadataDirOf name version ++ ["INSTALLER"], initPathOf name,
      metadataDirOf name version ++ ["RECORD"]] : List FsPath)
    = c1FL name version from rfl]
  rw [unlinkAll_ok _ _ (c1FL_reads s.fs name version) (c1FL_nodup name version)]
  dsimp only
  rw [collectFolders_c1FL name version hdot]
  have hm1 : metadataDirOf name version ∈
      ((c1FL name version).foldl FS.erase
        (addedFS s.fs name version [(name, some "")])).dirs := by
    rw [dirs_foldl_erase]
    exact addedFS_mem_metadataDir s.fs name version [(name, some "")]
  have hm2 : sitePackages ++ [name] ∈
      ((c1FL name version).foldl FS.erase
        (addedFS s.fs name version [(name, some "")])).dirs := by
    rw [dirs_foldl_erase]
    have h := addedFS_mem_moduleDir s.fs name version
      (show ((name, some "") : String × Option String) ∈ [(name, some "")] by simp)
    rw [show splitDot ((name, some "") : String × Option String).1 = [name] from
      splitDot_of_no_dot hdot] at h
    exact h
  rw [rmtreeLoop_c1 _ name version hdot hm1 hm2]
  rfl

theorem singleton_prefix_cons {a b : String} {l : List String}
    (h : [a] <+: b :: l) : a = b := by
  obtain ⟨t, ht⟩ := h
  rw [List.singleton_append] at ht
  exact (List.cons.injEq _ _ _ _ ▸ ht).1

theorem c1FS2_dirs_sub {fs0 : FS} {n v : String} {q : FsPath}
    (h : q ∈ (c1FS2 fs0 n v).dirs) :
    q ∈ (addedFS fs0 n v [(n, some "")]).dirs ∧
      ¬ metadataDirOf n v <+: q ∧ ¬ (sitePackages ++ [n]) <+: q := by
  unfold c1FS2 at h
  have h1 := mem_dirs_rmtreeFS.1 h
  have h2 := mem_dirs_rmtreeFS.1 h1.1
  rw [dirs_foldl_erase] at h2
  exact ⟨h2.1, h2.2, h1.2⟩

theorem c1FS2_read_old {fs0 : FS} {n v : String} {c X : String}
    (hdot : '.' ∉ n.data) (hcdot : '.' ∈ c.data)
    (hne : sitePackages ++ [c] ≠ metadataDirOf n v) :
    (c1FS2 fs0 n v).read (sitePackages ++ [c] ++ [X]) =
      fs0.read (sitePackages ++ [c] ++ [X]) := by
  have hcn : c ≠ n := distinfo_component_ne hcdot hdot
  have hpre1 : ¬ (sitePackages ++ [n]) <+: sitePackages ++ [c] ++ [X] := by
    intro hp
    rw [List.append_assoc] at hp
    have := (List.prefix_append_right_inj sitePackages).1 hp
    exact hcn (singleton_prefix_cons this).symm
  have hpre2 : ¬ metadataDirOf n v <+: sitePackages ++ [c] ++ [X] := by
    intro hp
    unfold metadataDirOf at hp
    rw [List.append_assoc] at hp
    have := (List.prefix_append_right_inj sitePackages).1 hp
    have hdc := singleton_prefix_cons this
    exact hne (by rw [← hdc]; rfl)
  have hnotfl : sitePackages ++ [c] ++ [X] ∉ c1FL n v := by
    intro hmem
    unfold c1FL at hmem
    simp only [List.mem_cons, List.not_mem_nil, or_false] at hmem
    have hdl : ∀ r : FsPath, ∀ y : String,
        sitePackages ++ [c] ++ [X] = r ++ [y] → sitePackages ++ [c] = r := by
      intro r y he
      have := congrArg List.dropLast he
      rwa [List.dropLast_concat, List.dropLast_concat] at this
    rcases hmem with he | he | he | he
    · exact hne (hdl _ _ he)
    · exact hne (hdl _ _ he)
    · rw [initPathOf_no_dot hdot] at he
      have := hdl _ _ he
      have hc := List.append_cancel_left this
      rw [List.cons.injEq] at hc
      exact hcn hc.1
    · exact hne (hdl _ _ he)
  unfold c1FS2
  rw [read_rmtreeFS_outside _ hpre1, read_rmtreeFS_outside _ hpre2]
  rw [read_foldl_erase_of_not_mem _ _ hnotfl]
  refine addedFS_read_other fs0 n v [(n, some "")] ?_ ?_ ?_ ?_
  · intro he
    exact hne (by
      have := congrArg List.dropLast he
      rwa [List.dropLast_concat, List.dropLast_concat] at this)
  · intro he
    exact hne (by
      have := congrArg List.dropLast he
      rwa [List.dropLast_concat, List.dropLast_concat] at this)
  · intro he
    exact hne (by
      have := congrArg List.dropLast he
      rwa [List.dropLast_concat, List.dropLast_concat] at this)
  · intro m hm he
    rw [List.mem_singleton] at hm
    subst hm
    rw [show initPathOf ((n, some "") : String × Option String).1 = initPathOf n from rfl,
      initPathOf_no_dot hdot] at he
    have := congrArg List.dropLast he
    rw [List.dropLast_concat, List.dropLast_concat] at this
    have hc := List.append_cancel_left this
    rw [List.cons.injEq] at hc
    exact hcn hc.1

theorem no_name_after_remove (s : State) (name version : String)
    (hmd : pathExistsB s.fs (metadataDirOf name version) = false)
    (hdot : '.' ∉ name.data)
    (hfresh : name ∉ (distributions s).map Dist.name) :
    ∀ d2 ∈ distributions (State.mk (c1FS2 s.fs name version)
      (s.sysPath ++ [.str (pathToString sitePackages)]) s.memDists), d2.name ≠ name := by
  intro d2 hd2
  unfold distributions at hd2
  rcases List.mem_append.1 hd2 with hd2 | hd2
  · -- a surviving on-disk distribution
    unfold persistentDists at hd2
    rw [List.mem_map] at hd2
    obtain ⟨dd, hddf, rfl⟩ := hd2
    rw [List.mem_filter] at hddf
    obtain ⟨hddm, hddinfo⟩ := hddf
    obtain ⟨hadd, hnp1, hnp2⟩ := c1FS2_dirs_sub (show dd ∈ (c1FS2 s.fs name version).dirs from hddm)
    obtain ⟨L, hL, hsub⟩ := addedFS_dirs_shape s.fs name version [(name, some "")]
    rw [hL, List.mem_append] at hadd
    rcases hadd with hold | hnew
    · -- it existed before the add: its metadata is untouched
      obtain ⟨c, rfl, hcdot⟩ := distInfoDir_structure hddinfo
      have hne : sitePackages ++ [c] ≠ metadataDirOf name version := by
        intro he
        exact (pathExistsB_false_iff.1 hmd).1 (he ▸ hold)
      have heq : distOfDir (c1FS2 s.fs name version) (sitePackages ++ [c]) =
          distOfDir s.fs (sitePackages ++ [c]) := by
        unfold distOfDir
        rw [c1FS2_read_old hdot hcdot hne, c1FS2_read_old hdot hcdot hne,
          c1FS2_read_old hdot hcdot hne]
      rw [heq]
      have hmem : distOfDir s.fs (sitePackages ++ [c]) ∈ distributions s := by
        unfold distributions persistentDists
        refine List.mem_append.2 (Or.inl ?_)
        exact List.mem_map_of_mem _ (List.mem_filter.2 ⟨hold, hddinfo⟩)
      exact fun he => hfresh (he ▸ List.mem_map_of_mem Dist.name hmem)
    · -- it was created by the add: only the dist-info directory matches,
      -- and that one was deleted
      have := distInfo_child_cases (hsub dd hnew) hddinfo
      exact absurd (this ▸ List.prefix_refl _) hnp1
  · -- an in-memory distribution: untouched by the persistent round trip
    rw [List.mem_map] at hd2
    obtain ⟨m, hm, rfl⟩ := hd2
    have hmem : memDistView m ∈ distributions s := by
      unfold distributions
      exact List.mem_append.2 (Or.inr (List.mem_map_of_mem memDistView hm))
    exact fun he => hfresh (he ▸ List.mem_map_of_mem Dist.name hmem)

theorem memDistView_new (name mt : String) (mods : List (String × Option String)) :
    memDistView ⟨name, [("METADATA", mt), ("INSTALLER", MOCK_INSTALL_NAME_MEMORY)], mods⟩ =
      ⟨name, some MOCK_INSTALL_NAME_MEMORY, none⟩ := by
  unfold memDistView
  rw [List.find?_cons_of_neg _ (by simp), List.find?_cons_of_pos _ (by simp)]
  rfl

theorem find_after_memory_add (s : State) (name version : String)
    (hfresh : name ∉ (distributions s).map Dist.name) :
    distributionFind (State.mk s.fs s.sysPath
        (addInMemoryDistribution s.memDists name
          [("METADATA", metadataText name version [(name, some "")]),
           ("INSTALLER", MOCK_INSTALL_NAME_MEMORY)] [(name, some "")])) name =
      some ⟨name, some MOCK_INSTALL_NAME_MEMORY, none⟩ := by
  unfold distributionFind distributions addInMemoryDistribution
  dsimp only
  rw [find?_append_of_none ?hpers]
  case hpers =>
    intro d hd
    have hdn : d.name ∈ (distributions s).map Dist.name := by
      refine List.mem_map_of_mem Dist.name ?_
      unfold distributions
      exact List.mem_append.2 (Or.inl hd)
    have : d.name ≠ name := fun he => hfresh (he ▸ hdn)
    simp [this]
  rw [List.map_append, find?_append_of_none ?hfiltered]
  case hfiltered =>
    intro d hd
    rw [List.mem_map] at hd
    obtain ⟨m, hm, rfl⟩ := hd
    rw [List.mem_filter] at hm
    have hmn : m.name ≠ name := by simpa using hm.2
    show ((memDistView m).name == name) = false
    unfold memDistView
    simpa using hmn
  rw [List.map_singleton, memDistView_new, List.find?_cons_of_pos _ (by simp)]

theorem removeInMemory_after_add (tbl : List MemDist) (name : String)
    (mf : List (String × String)) (mods : List (String × Option String)) :
    removeInMemoryDistribution (addInMemoryDistribution tbl name mf mods) name =
      tbl.filter (fun m => m.name != name) := by
  unfold removeInMemoryDistribution addInMemoryDistribution
  rw [List.filter_append]
  have h1 : (tbl.filter (fun m => m.name != name)).filter (fun m => m.name != name) =
      tbl.filter (fun m => m.name != name) :=
    List.filter_eq_self.2 (fun m hm => (List.mem_filter.1 hm).2)
  have h2 : (([⟨name, mf, mods⟩] : List MemDist)).filter (fun m => m.name != name) = [] := by
    simp [List.filter_cons]
  rw [h1, h2, List.append_nil]

theorem remove_after_memory_add (s : State) (name version : String)
    (hfresh : name ∉ (distributions s).map Dist.name) :
    remove_mock_package (add_mock_package s name version none false).2 name =
      (.ok (), State.mk s.fs s.sysPath (s.memDists.filter (fun m => m.name != name))) := by
  rw [add_memory_eq s name version none]
  show remove_mock_package (State.mk s.fs s.sysPath
    (addInMemoryDistribution s.memDists name
      [("METADATA", metadataText name version [(name, some "")]),
       ("INSTALLER", MOCK_INSTALL_NAME_MEMORY)] [(name, some "")])) name = _
  unfold remove_mock_package
  rw [find_after_memory_add s name version hfresh]
  dsimp only
  rw [if_pos (by decide)]
  show (Except.ok (), State.mk s.fs s.sysPath
    (removeInMemoryDistribution (addInMemoryDistribution s.memDists name
      [("METADATA", metadataText name version [(name, some "")]),
       ("INSTALLER", MOCK_INSTALL_NAME_MEMORY)] [(name, some "")]) name)) = _
  rw [removeInMemory_after_add]

theorem no_name_after_memory_remove (s : State) (name : String)
    (hfresh : name ∉ (distributions s).map Dist.name) :
    ∀ d2 ∈ distributions (State.mk s.fs s.sysPath
      (s.memDists.filter (fun m => m.name != name))), d2.name ≠ name := by
  intro d2 hd2
  unfold distributions at hd2
  rcases List.mem_append.1 hd2 with hd2 | hd2
  · have hdn : d2.name ∈ (distributions s).map Dist.name := by
      refine List.mem_map_of_mem Dist.name ?_
      unfold distributions
      exact List.mem_append.2 (Or.inl hd2)
    exact fun he => hfresh (he ▸ hdn)
  · rw [List.mem_map] at hd2
    obtain ⟨m, hm, rfl⟩ := hd2
    rw [List.mem_filter] at hm
    have hmn : m.name ≠ name := by simpa using hm.2
    exact hmn

/-- A state in which a fresh round trip for `(name, version)` can start:
the site-packages root exists, the recorded directories are duplicate
free, `sys.path` holds strings (as in a real interpreter), the dist-info
directory of the pair does not exist yet, and no known distribution
already carries the name. -/
def cleanFor (s : State) (name version : String) : Prop :=
  pathExistsB s.fs sitePackages = true ∧
  s.fs.dirs.Nodup ∧
  onlyStrEntries s.sysPath = true ∧
  pathExistsB s.fs (metadataDirOf name version) = false ∧
  name ∉ (distributions s).map Dist.name

instance (s : State) (name version : String) : Decidable (cleanFor s name version) := by
  unfold cleanFor
  infer_instance

/-- C1: the round trip, on both backends.  From a clean state, adding the
mock makes `list_mock_packages` contain the name; removing it again
succeeds and the name is gone from `list_mock_packages` — both for the
persistent backend and for the in-memory backend. -/
theorem C1_add_list_remove_round_trip (s : State) (name version : String)
    (hclean : cleanFor s name version)
    (hn : goodComponent name) (hdot : '.' ∉ name.data) (hv : goodComponent version) :
    (add_mock_package s name version none true).1 = .ok () ∧
    name ∈ list_mock_packages (add_mock_package s name version none true).2 ∧
    (remove_mock_package (add_mock_package s name version none true).2 name).1 = .ok () ∧
    name ∉ list_mock_packages
      (remove_mock_package (add_mock_package s name version none true).2 name).2 ∧
    (add_mock_package s name version none false).1 = .ok () ∧
    name ∈ list_mock_packages (add_mock_package s name version none false).2 ∧
    (remove_mock_package (add_mock_package s name version none false).2 name).1 = .ok () ∧
    name ∉ list_mock_packages
      (remove_mock_package (add_mock_package s name version none false).2 name).2 := by
  obtain ⟨hsp, hnodup, hstr, hmd, hfresh⟩ := hclean
  obtain ⟨hname, hinst, hfiles⟩ := newDist_fields s.fs name version hn hdot hv
  have hadd := add_persistent_ok s name version none hsp hmd hstr
  have hrem := remove_after_persistent_add s name version hsp hmd hstr hnodup hn hdot hv hfresh
  have hremM := remove_after_memory_add s name version hfresh
  refine ⟨?_, ?_, ?_, ?_, ?_, ?_, ?_, ?_⟩
  · exact congrArg Prod.fst hadd
  · rw [hadd]
    show name ∈ list_mock_packages (State.mk (addedFS s.fs name version [(name, some "")])
      (s.sysPath ++ [.str (pathToString sitePackages)]) s.memDists)
    refine mem_list_mock_packages.2
      ⟨distOfDir (addedFS s.fs name version [(name, some "")]) (metadataDirOf name version),
        ?_, ?_, hname⟩
    · unfold distributions
      refine List.mem_append.2 (Or.inl ?_)
      show _ ∈ persistentDists (addedFS s.fs name version [(name, some "")])
      rw [persistentDists_addedFS_full s.fs name version [(name, some "")] hmd hnodup]
      exact List.mem_append.2 (Or.inr (List.mem_singleton.2 rfl))
    · unfold isMockInstaller
      rw [hinst]
      decide
  · exact congrArg Prod.fst hrem
  · rw [hrem]
    intro hmem
    obtain ⟨d, hd, _, hdname⟩ := mem_list_mock_packages.1 hmem
    exact no_name_after_remove s name version hmd hdot hfresh d hd hdname
  · exact congrArg Prod.fst (add_memory_eq s name version none)
  · rw [add_memory_eq s name version none]
    show name ∈ list_mock_packages (State.mk s.fs s.sysPath
      (addInMemoryDistribution s.memDists name
        [("METADATA", metadataText name version [(name, some "")]),
         ("INSTALLER", MOCK_INSTALL_NAME_MEMORY)] [(name, some "")]))
    refine mem_list_mock_packages.2
      ⟨⟨name, some MOCK_INSTALL_NAME_MEMORY, none⟩, ?_,
        show isMockInstaller (some MOCK_INSTALL_NAME_MEMORY) = true by decide, rfl⟩
    unfold distributions addInMemoryDistribution
    refine List.mem_append.2 (Or.inr ?_)
    rw [List.map_append]
    refine List.mem_append.2 (Or.inr ?_)
    rw [List.map_singleton, memDistView_new]
    exact List.mem_singleton.2 rfl
  · exact congrArg Prod.fst hremM
  · rw [hremM]
    intro hmem
    obtain ⟨d, hd, _, hdname⟩ := mem_list_mock_packages.1 hmem
    exact no_name_after_memory_remove s name hfresh d hd hdname

/-- Witness state for C1. -/
def stateC1 : State :=
  { fs := { files := [], dirs := [sitePackages] }, sysPath := [], memDists := [] }

set_option maxRecDepth 8000 in
theorem C1_witness :
    (cleanFor stateC1 "foo" "1.0" ∧ goodComponent "foo" ∧ '.' ∉ "foo".data ∧
      goodComponent "1.0") ∧
    (add_mock_package stateC1 "foo" "1.0" none true).1 = .ok () ∧
    "foo" ∈ list_mock_packages (add_mock_package stateC1 "foo" "1.0" none true).2 ∧
    (remove_mock_package (add_mock_package stateC1 "foo" "1.0" none true).2 "foo").1 = .ok () ∧
    "foo" ∉ list_mock_packages
      (remove_mock_package (add_mock_package stateC1 "foo" "1.0" none true).2 "foo").2 ∧
    (add_mock_package stateC1 "foo" "1.0" none false).1 = .ok () ∧
    "foo" ∈ list_mock_packages (add_mock_package stateC1 "foo" "1.0" none false).2 ∧
    (remove_mock_package (add_mock_package stateC1 "foo" "1.0" none false).2 "foo").1 = .ok () ∧
    "foo" ∉ list_mock_packages
      (remove_mock_package (add_mock_package stateC1 "foo" "1.0" none false).2 "foo").2 :=
  ⟨⟨by decide, by decide, by decide, by decide⟩,
    C1_add_list_remove_round_trip stateC1 "foo" "1.0" (by decide) (by decide)
      (by decide) (by decide)⟩

end Micropip
